import Mathlib

/-!
Shallow embedding of the path-addressable document engine of
`trivago/go-kubernetes`.

Embedded source files:
* `namedobject.go`   — `NamedObject`, `Get`/`Set`/`Has`/`Delete`, `walk`,
  `GeneratePatch`, `Hash`/`HashStr`/`getOrderedHash`/`doHash`
* `path.go`          — `Path`, `ArrayNotation`, `GetArrayNotation`, `IsArray`
* `walkargs.go`      — `WalkArgs`, `push`/`pushTraversal`/`getKey`/`onMutate`
* `errors.go`        — the typed error values

Modelling conventions:
* Go `interface{}` trees are modelled by `Value` (strings, ints, bools,
  JSON null, string-keyed objects, arrays).  Go numbers also include
  floats (hashed via `%f`) and unsigned ints (hashed via the invalid verb
  `%u`); these extra numeric kinds are not modelled — no claim depends on
  them.  Byte slices hash exactly like strings and are likewise folded
  into `Value.str`.
* Go maps are unordered with unique keys; they are modelled as
  association lists.  The entry order of the list is never semantically
  observable in the embedding except through well-formedness side
  conditions (`WFDoc` asserts unique keys, as holds for every real Go
  map).
* In-place mutation through parent pointers (`WalkArgs.parent`,
  `changeParentTo`, `onMutate`) is modelled functionally: each `walk`
  call reports in its `SlotOut` how the parent container must update the
  slot the call was made on.  In Go an erroring `walk` never mutates
  (mutation happens only at a successfully resolved leaf), which the
  embedding mirrors by returning the unchanged node on error.
* The callbacks `MatchFunc`/`NotFoundFunc` have side effects in Go; the
  embedding returns the exact sequence of callback invocations as an
  event log, and callers (e.g. `GeneratePatch`) fold over that log.
* `xxhash` digests are a deterministic function of the byte stream fed
  to the hasher, so the embedding represents a digest by the stream
  itself (`List Char`): equal streams give equal `Hash`/`HashStr`
  results, and the 64-bit hash differs only when the streams differ.
* One corner of `GeneratePatch` makes the Go program abort with a
  runtime panic (slicing a path at index -1); the embedding returns the
  distinguished outcome `GoErr.panicSliceBounds` there.
-/

namespace GoKube

/-- The dynamic document value model (`interface{}` trees produced by
JSON unmarshalling): scalars, JSON null, objects and arrays. -/
inductive Value where
  | str  : String → Value
  | int  : Int → Value
  | bool : Bool → Value
  | null : Value
  | obj  : List (String × Value) → Value
  | arr  : List Value → Value

/-- The typed errors of `errors.go` that the embedded operations can
produce, plus `strconvError` (the error returned by
`strconv.ParseInt` inside `walk`) and `panicSliceBounds` (a Go runtime
panic — `p[idx:]` with negative `idx` — reachable in `GeneratePatch`). -/
inductive GoErr where
  | notFound (key : String)
  | notTraversable (msg : String)
  | missingArrayTraversal (key : String)
  | notAnArray (key : String)
  | incorrectType (t : String)
  | indexNotation
  | strconvError (s : String)
  | panicSliceBounds
  | unsupportedHashType (msg : String)
  deriving DecidableEq, Repr

/-- Source: the `err.(ErrNotFound)` type assertion in `GeneratePatch`. -/
def GoErr.isNotFound : GoErr → Bool
  | .notFound _ => true
  | _ => false

/-- Source: `Path` (path.go) — an ordered list of segments. -/
abbrev Path := List String

/-- Source: `ArrayNotation` (path.go): invalid (ordinary map key),
explicit index, or traversal/append. -/
inductive ArrKind where
  | invalid
  | index
  | traversal
  deriving DecidableEq, Repr

/-- Source: `GetArrayNotation` (path.go).  The Go code inspects only the
FIRST byte of the segment: empty → invalid, `-` → traversal, decimal
digit → index, anything else → invalid.  (UTF-8 lead bytes of non-ASCII
characters are neither `-` nor digits, so a first-character model is
equivalent.)  Renamed from `GetArrayNotation`. -/
def getArrayKind (key : String) : ArrKind :=
  match key.data with
  | [] => .invalid
  | c :: _ =>
    if c = '-' then .traversal
    else if '0' ≤ c ∧ c ≤ '9' then .index
    else .invalid

/-- The notation found at the head of a path suffix: the first segment,
or — when the first segment is an ordinary key — the second one
("named array").  This is the core of `Path.IsArray`. -/
def suffixKind : List String → ArrKind
  | [] => .invalid
  | s :: rest =>
    if getArrayKind s ≠ .invalid then getArrayKind s
    else
      match rest with
      | [] => .invalid
      | t :: _ => if getArrayKind t ≠ .invalid then getArrayKind t else .invalid

/-- Source: `Path.IsArray(idx int)` (path.go).  Go takes a signed index;
for a non-empty path and negative `idx` the slice expression `p[idx:]`
panics at runtime, which is modelled by `none`. -/
def isArrayAt (p : Path) (idx : Int) : Option (Bool × ArrKind) :=
  if p.length = 0 then some (false, .invalid)
  else if (p.length : Int) ≤ idx then some (false, .invalid)
  else if idx < 0 then none
  else
    let k := suffixKind (p.drop idx.toNat)
    some (k ≠ .invalid, k)

/-- First-match lookup in an association list (a Go map read
`object[key]`; real Go maps never hold duplicate keys). -/
def lookupEntry : List (String × Value) → String → Option Value
  | [], _ => none
  | (k, v) :: rest, key => if k = key then some v else lookupEntry rest key

/-- Go map write `object[key] = w` on an existing key: replace the first
occurrence. -/
def updateKey : List (String × Value) → String → Value → List (String × Value)
  | [], _, _ => []
  | (k, v) :: rest, key, w =>
    if k = key then (k, w) :: rest else (k, v) :: updateKey rest key w

/-- Go map delete `delete(object, key)`: drop the first occurrence. -/
def eraseKey : List (String × Value) → String → List (String × Value)
  | [], _ => []
  | (k, v) :: rest, key =>
    if k = key then rest else (k, v) :: eraseKey rest key

/-- The keys of an object, in entry order. -/
def entryKeys (es : List (String × Value)) : List String := es.map Prod.fst

/-- Byte-lexicographic string order, as used by `sort.StringSlice`
(UTF-8 byte order and code-point order coincide). -/
def charsLe : List Char → List Char → Bool
  | [], _ => true
  | _ :: _, [] => false
  | a :: as, b :: bs => if a = b then charsLe as bs else decide (a < b)

/-- `a <= b` on strings, byte-lexicographically. -/
def strLe (a b : String) : Bool := charsLe a.data b.data

/-- Source: the `sort.StringSlice(keys).Sort()` call in
`getOrderedHash`.  Any correct sort is observationally equal here (the
sorted key sequence is all that is consumed), so a structurally
recursive insertion sort is used. -/
def sortKeys (ks : List String) : List String :=
  ks.insertionSort (fun a b => strLe a b = true)

/-- A value found by `lookupEntry` is structurally smaller than the
entry list (termination measure for the hasher). -/
theorem sizeOf_lookupEntry {es : List (String × Value)} {k : String} {v : Value}
    (h : lookupEntry es k = some v) : sizeOf v < sizeOf es := by
  induction es with
  | nil => simp [lookupEntry] at h
  | cons e rest ih =>
    obtain ⟨k', v'⟩ := e
    simp only [lookupEntry] at h
    split at h
    · cases h; simp; omega
    · have := ih h; simp; omega

/-- Source: `strconv.ParseInt(arrayIdx, 10, 32)` in `walk`: succeeds
exactly on all-digit strings whose value fits in 32 signed bits (the
call site guarantees a digit first byte, so no sign handling). -/
def parseInt32 (s : String) : Except GoErr Nat :=
  if s.data ≠ [] ∧ s.data.all (fun c => '0' ≤ c ∧ c ≤ '9') then
    let n := s.data.foldl (fun a c => a * 10 + (c.toNat - 48)) 0
    if n ≤ 2147483647 then .ok n else .error (.strconvError s)
  else .error (.strconvError s)

/-! ## The hasher (`Hash`, `HashStr`, `getOrderedHash`, `doHash`)

The stream fed to the `xxhash.Hash64` is modelled by a `List Char`
(`String.data` of everything written).  `doHash`/`getOrderedHash`
return the stream together with the error: objects stop at the first
failing key (as `getOrderedHash` does), arrays keep hashing after a
failing element but report the error (as `doHash`'s slice cases do;
Go wraps later errors — only presence and kind matter here). -/

mutual

/-- Source: `doHash(hasher, k, iv)` (namedobject.go) — type-directed
hashing of one value sitting under field `k`.  Strings feed raw bytes,
bools the literals `true`/`false`, ints their `%d` rendering; objects
recurse through sorted keys; arrays feed elements in order; a JSON null
hits the `default` arm and produces `ErrUnsupportedHashType` naming the
field. -/
def doHash (k : String) (v : Value) : List Char × Option GoErr :=
  match v with
  | .str s => (s.data, none)
  | .int n => ((toString n).data, none)
  | .bool b => (if b then "true".data else "false".data, none)
  | .null =>
    ([], some (.unsupportedHashType
      ("cannot create hash for field " ++ k ++ " of type <nil>")))
  | .arr xs => hashArray k xs
  | .obj es => hashSortedKeys es (sortKeys (entryKeys es))
termination_by (sizeOf v, 0)

/-- Source: the key loop of `getOrderedHash`: for each key (already
sorted) write the key bytes, then hash the value; stop at the first
error. -/
def hashSortedKeys (es : List (String × Value)) (ks : List String) :
    List Char × Option GoErr :=
  match ks with
  | [] => ([], none)
  | k :: rest =>
    match h : lookupEntry es k with
    | none =>
      -- Unreachable for keys taken from the object itself; a missing key
      -- would read as `nil` in Go and hash like a null value.
      (k.data, some (.unsupportedHashType
        ("cannot create hash for field " ++ k ++ " of type <nil>")))
    | some v =>
      let r := doHash k v
      match r.2 with
      | some e => (k.data ++ r.1, some e)
      | none =>
        let r' := hashSortedKeys es rest
        (k.data ++ r.1 ++ r'.1, r'.2)
termination_by (sizeOf es, ks.length + 1)
decreasing_by
  · exact Prod.Lex.left _ _ (sizeOf_lookupEntry h)
  · exact Prod.Lex.right _ (Nat.lt_succ_self _)

/-- Source: the `[]interface{}` arm of `doHash`: hash every element in
original order under the same field name, remembering the first
error but not stopping. -/
def hashArray (k : String) (xs : List Value) : List Char × Option GoErr :=
  match xs with
  | [] => ([], none)
  | x :: rest =>
    let r := doHash k x
    let r' := hashArray k rest
    (r.1 ++ r'.1, r.2 <|> r'.2)
termination_by (sizeOf xs, 0)

end

/-- Source: `getOrderedHash` — sort the keys of one object level and
hash each key/value pair. -/
def getOrderedHash (es : List (String × Value)) : List Char × Option GoErr :=
  hashSortedKeys es (sortKeys (entryKeys es))

/-! ## The walker -/

/-- Source: `WalkArgs` (walkargs.go).  The `parent`/`previousArgs`
back-references are realised functionally by `SlotOut`; the
`NotFoundFunc`/`MatchFunc` side effects are realised by the event log. -/
structure WalkArgs where
  matchAll : Bool := false
  matchFunc : Option (Value → Path → Bool) := none
  mutateFunc : Option (Value → Value) := none
  appendOnMutate : Bool := false
  walkedPath : Path := []

/-- One callback invocation performed during a walk: a `MatchFunc` call
(with the value and the resolved path it received) or a `NotFoundFunc`
call (with the path it received). -/
inductive Event where
  | matched (v : Value) (p : Path)
  | missed (p : Path)

/-- How a walk changes the slot (map key or array position) it was
invoked on: overwrite, delete (Go: mutate returned `nil`), or append to
the parent array (Go: `appendOnMutate`). -/
inductive SlotOut where
  | set (v : Value)
  | delete
  | append (v : Value)

/-- Result of a walk: callback log, result value or error, and the slot
update for the caller.  On error the slot is always `.set` of the
unchanged input node (Go mutates only at a successfully resolved
leaf). -/
structure WalkOut where
  log : List Event
  res : Except GoErr Value
  slot : SlotOut

/-- Source: `WalkArgs.getKey` — the key of the node currently
processed (last element of the walked path). -/
def WalkArgs.getKey (args : WalkArgs) : String := args.walkedPath.getLastD ""

/-- Source: `WalkArgs.push` — recursion step bookkeeping; resets the
append flag. -/
def WalkArgs.push (args : WalkArgs) (key : String) : WalkArgs :=
  { args with walkedPath := args.walkedPath ++ [key], appendOnMutate := false }

/-- Source: `WalkArgs.pushTraversal` — like `push` but any mutation at
the next level appends to the array instead of overwriting. -/
def WalkArgs.pushTraversal (args : WalkArgs) (key : String) : WalkArgs :=
  { args with walkedPath := args.walkedPath ++ [key], appendOnMutate := true }

/-- Source: the `walked` path computed in `walk`'s `errNotFound`
helper: the walked path, extended by the failing key when it is
non-empty. -/
def missPath (args : WalkArgs) (key : String) : Path :=
  if key.length > 0 then args.walkedPath ++ [key] else args.walkedPath

/-- Source: `onMutate` (walkargs.go), seen from the parent container:
apply the mutate function; a `nil` result means "delete the slot",
otherwise overwrite — or append, when the traversal context set
`appendOnMutate`. -/
def onMutateSlot (args : WalkArgs) (node : Value) : Value × SlotOut :=
  match args.mutateFunc with
  | none => (node, .set node)
  | some f =>
    match f node with
    | .null => (.null, .delete)
    | value => (value, if args.appendOnMutate then .append value else .set value)

/-- Apply a child's slot update to a map entry (Go: the map arm of
`onMutate`; `append` cannot reach a map parent — `pushTraversal` is
only used on arrays — and is treated as overwrite). -/
def applySlotKey (es : List (String × Value)) (key : String) :
    SlotOut → List (String × Value)
  | .set w => updateKey es key w
  | .delete => eraseKey es key
  | .append w => updateKey es key w

/-- Apply a child's slot update to an array position (Go: the slice arm
of `onMutate`: delete removes the element, append pushes, otherwise
overwrite in place). -/
def applySlotIdx (xs : List Value) (i : Nat) : SlotOut → List Value
  | .set w => xs.set i w
  | .delete => xs.eraseIdx i
  | .append w => xs ++ [w]

/-- The Go reflect kind names used in `walk`'s final
`ErrNotTraversable` message for the scalar kinds modelled here. -/
def kindName : Value → String
  | .str _ => "string"
  | .int _ => "int"
  | .bool _ => "bool"
  | _ => ""

/-- Source: the `!args.MatchAll` loop of `walk`'s traversal arm: try
children in ascending order, return the first whose sub-walk succeeds
(applying its slot update to the array), fall through to `failOut`
(`NotFound` for `"-"`) when none does; every sub-walk's callback log is
kept. -/
def firstHit (f : Nat → Value → WalkOut) (xsFull : List Value) (failOut : WalkOut) :
    List Value → Nat → WalkOut
  | [], _ => failOut
  | x :: rest, i =>
    let sub := f i x
    match sub.res with
    | .ok v => ⟨sub.log, .ok v, .set (.arr (applySlotIdx xsFull i sub.slot))⟩
    | .error _ =>
      let t := firstHit f xsFull failOut rest (i + 1)
      ⟨sub.log ++ t.log, t.res, t.slot⟩

/-- Source: the `args.MatchAll` loop of `walk`'s traversal arm: walk
every child, collecting logs, the successful values, and the slot
updates of the successful children. -/
def collectAll (f : Nat → Value → WalkOut) :
    List Value → Nat → List Event × List Value × List (Nat × SlotOut)
  | [], _ => ([], [], [])
  | x :: rest, i =>
    let sub := f i x
    let t := collectAll f rest (i + 1)
    match sub.res with
    | .ok v => (sub.log ++ t.1, v :: t.2.1, (i, sub.slot) :: t.2.2)
    | .error _ => (sub.log ++ t.1, t.2.1, t.2.2)

/-- Whether a slot outcome is a deletion. -/
def SlotOut.isDelete : SlotOut → Bool
  | .delete => true
  | _ => false

/-- Apply the slot updates of a match-all fan-out to the array:
overwrites at their indices, deletions removed, appends at the end.
(Go performs these through in-place slice surgery while still ranging
over the original header; for deletions mixed into a fan-out that
aliasing makes the Go behaviour ill-defined — no claim, test or caller
exercises it — so the embedding applies the collected outcomes to the
original array.) -/
def applySlots (xs : List Value) (slots : List (Nat × SlotOut)) : List Value :=
  let withSets := slots.foldl
    (fun acc is => match is.2 with | .set w => acc.set is.1 w | _ => acc) xs
  let kept := (withSets.enum.filter
    (fun jx => !(slots.any (fun is => is.1 == jx.1 && is.2.isDelete)))).map Prod.snd
  let appends := slots.filterMap
    (fun is => match is.2 with | .append w => some w | _ => none)
  kept ++ appends

/-- Source: `walk(node, path, args)` (namedobject.go), the unified
traversal primitive.  Faithful transcription; see `WalkOut`/`SlotOut`
for how the in-place mutation and the callbacks are represented. -/
def walk : Path → Value → WalkArgs → WalkOut
  | [], node, args =>
    -- Empty path: the current node is the target.  MatchFunc first
    -- (a refusing predicate is "not found"), then onMutate.
    match args.matchFunc with
    | some pred =>
      if pred node args.walkedPath then
        let m := onMutateSlot args node
        ⟨[.matched node args.walkedPath], .ok m.1, m.2⟩
      else
        ⟨[.matched node args.walkedPath, .missed args.walkedPath],
          .error (.notFound ""), .set node⟩
    | none =>
      let m := onMutateSlot args node
      ⟨[], .ok m.1, m.2⟩
  | seg :: rest, node, args =>
    match node with
    | .null => ⟨[], .error (.notTraversable (args.getKey ++ " is nil")), .set node⟩
    | .obj es =>
      -- Objects must not be addressed with array notation.
      if getArrayKind seg ≠ .invalid then
        ⟨[], .error (.notAnArray args.getKey), .set node⟩
      else
        match lookupEntry es seg with
        | none =>
          match rest, args.mutateFunc with
          | [], some f =>
            -- Missing last key with a mutate function: synthesize the
            -- key (Go: push + onMutate(nil)); a nil mutate result is a
            -- no-op delete of an absent key.
            match f .null with
            | .null => ⟨[], .ok .null, .set node⟩
            | value => ⟨[], .ok value, .set (.obj (es ++ [(seg, value)]))⟩
          | _, _ =>
            ⟨[.missed (missPath args seg)], .error (.notFound seg), .set node⟩
        | some child =>
          let sub := walk rest child (args.push seg)
          match sub.res with
          | .error e => ⟨sub.log, .error e, .set node⟩
          | .ok v => ⟨sub.log, .ok v, .set (.obj (applySlotKey es seg sub.slot))⟩
    | .arr xs =>
      match getArrayKind seg with
      | .index =>
        match parseInt32 seg with
        | .error e => ⟨[], .error e, .set node⟩
        | .ok idx =>
          if h : idx < xs.length then
            let sub := walk rest (xs.get ⟨idx, h⟩) (args.push seg)
            match sub.res with
            | .error e => ⟨sub.log, .error e, .set node⟩
            | .ok v => ⟨sub.log, .ok v, .set (.arr (applySlotIdx xs idx sub.slot))⟩
          else
            ⟨[.missed (missPath args seg)], .error (.notFound seg), .set node⟩
      | .traversal =>
        if args.matchAll then
          let c := collectAll (fun i x => walk rest x (args.pushTraversal (toString i))) xs 0
          match c.2.1 with
          | [] =>
            ⟨c.1 ++ [.missed (args.walkedPath ++ ["-"])],
              .error (.notFound "-"), .set node⟩
          | [v] => ⟨c.1, .ok v, .set (.arr (applySlots xs c.2.2))⟩
          | vs => ⟨c.1, .ok (.arr vs), .set (.arr (applySlots xs c.2.2))⟩
        else
          firstHit (fun i x => walk rest x (args.pushTraversal (toString i))) xs
            ⟨[.missed (args.walkedPath ++ ["-"])], .error (.notFound "-"), .set node⟩
            xs 0
      | .invalid =>
        ⟨[], .error (.missingArrayTraversal args.getKey), .set node⟩
    | other =>
      ⟨[], .error (.notTraversable (args.getKey ++ " is " ++ kindName other)),
        .set other⟩
termination_by structural p => p

/-- Source: `NamedObject` — a document root (a Go map). -/
abbrev NamedObject := List (String × Value)

/-- Source: `NamedObject.Walk` — run `walk` on the root map. -/
def NamedObject.Walk (d : NamedObject) (p : Path) (args : WalkArgs) : WalkOut :=
  walk p (.obj d) args

/-- The document after a root walk: the root's slot update, except that
a mutation aimed at the root itself (empty path — Go's `onMutate` with
a nil parent) changes nothing. -/
def afterWalk (d : NamedObject) (p : Path) (out : WalkOut) : NamedObject :=
  if p.isEmpty then d
  else
    match out.slot with
    | .set (.obj es) => es
    | _ => d

/-- Error component of a walk result. -/
def errOf (r : Except GoErr Value) : Option GoErr :=
  match r with
  | .ok _ => none
  | .error e => some e

/-- Source: `NamedObject.Get` — plain read. -/
def NamedObject.Get (d : NamedObject) (p : Path) : Except GoErr Value :=
  (d.Walk p {}).res

/-- Source: `NamedObject.Has` — `Get` succeeded. -/
def NamedObject.Has (d : NamedObject) (p : Path) : Bool :=
  match d.Get p with
  | .ok _ => true
  | .error _ => false

/-- Source: `NamedObject.Delete` — walk with a mutate function that
always returns nil.  Returns the updated document and the error. -/
def NamedObject.Delete (d : NamedObject) (p : Path) : NamedObject × Option GoErr :=
  let out := d.Walk p { mutateFunc := some fun _ => .null }
  (afterWalk d p out, errOf out.res)

/-- The `WalkArgs` used by `GeneratePatch`: a match function that
records the resolved path and returns true, and a not-found function
that records the reached path (both realised via the event log). -/
def genArgs : WalkArgs := { matchFunc := some fun _ _ => true }

/-- Source: `validPath[len(validPath)-1] = "-"` in `GeneratePatch`'s
match function. -/
def setLastDash (q : Path) : Path := q.dropLast ++ ["-"]

/-- The `validPath` variable of `GeneratePatch` after the walk: each
match-function call stores the resolved path (restoring a trailing
`"-"` when the original path ends in traversal notation), each
not-found call stores the reached path; the last call wins. -/
def genValid (p : Path) (log : List Event) : Path :=
  log.foldl
    (fun acc ev =>
      match ev with
      | .matched _ q =>
        if getArrayKind (p.getLastD "") = .traversal then setLastDash q else q
      | .missed q => q)
    []

/-- One node created by `GeneratePatch`'s construction loop: an empty
map or a one-element array, to be attached under the given path
segment. -/
inductive ChainStep where
  | mapStep (key : String)
  | arrStep (key : String)

/-- Source: the `for idx := firstIdx; idx < len(path); idx++` loop of
`GeneratePatch`, transcribed over the path suffix `path[firstIdx:]`:
ordinary keys produce an empty map (except at the last position, whose
key attaches the value itself), traversal notation produces a
one-element array and skips the notation segment of a named array, and
explicit index notation is an error. -/
def buildChain : List String → Except GoErr (List ChainStep)
  | [] => .ok []
  | s :: rest =>
    match suffixKind (s :: rest) with
    | .invalid =>
      match rest with
      | [] => .ok []
      | _ :: _ =>
        match buildChain rest with
        | .error e => .error e
        | .ok t => .ok (.mapStep s :: t)
    | .traversal =>
      if s = "-" then
        match buildChain rest with
        | .error e => .error e
        | .ok t => .ok (.arrStep "-" :: t)
      else
        match rest with
        | [] => .ok [.arrStep s]
        | _ :: rest' =>
          match buildChain rest' with
          | .error e => .error e
          | .ok t => .ok (.arrStep s :: t)
    | .index => .error .indexNotation
termination_by structural l => l

/-- The first node of the synthesized hierarchy (`parentNode` before
the loop): a fresh map, a fresh one-element array, or nothing yet
(`nil`, when an existing array is extended through a non-`"-"`
traversal segment). -/
inductive RootKind where
  | mapRoot
  | arrRoot
  | nilRoot

/-- Source: `addToParent` for one chain node: attach `x` under `key`
into a fresh container (arrays wrap non-append keys into a one-entry
map at slot 0); returns the new value and the key under which it is
attached one level further up. -/
def attachStep (x : Value) (key : String) : ChainStep → Value × String
  | .mapStep k => (.obj [(key, x)], k)
  | .arrStep k =>
    (if key = "-" then .arr [x] else .arr [.obj [(key, x)]], k)

/-- Fold the chain from the innermost node outwards: start from the
value under the final path segment and wrap it step by step. -/
def assembleSteps (steps : List ChainStep) (lastKey : String) (v : Value) :
    Value × String :=
  steps.foldr (fun st xk => attachStep xk.1 xk.2 st) (v, lastKey)

/-- Source: the first `addToParent` call resolving against
`parentNode`: a fresh map takes the entry, a fresh one-element array
takes slot 0, and the `nil` case writes `extendedValue` directly. -/
def attachRoot (root : RootKind) (xk : Value × String) : Value :=
  match root with
  | .mapRoot => .obj [(xk.2, xk.1)]
  | .arrRoot => if xk.2 = "-" then .arr [xk.1] else .arr [.obj [(xk.2, xk.1)]]
  | .nilRoot => if xk.2 = "-" then .arr [xk.1] else .obj [(xk.2, xk.1)]

/-- Source: `NamedObject.GeneratePatch(path, value)` — shrink the path
to its resolvable prefix and wrap the value so that one "add" at the
prefix makes the full path hold the value.  The
`some .panicSliceBounds` outcome marks the input class on which the Go
code aborts with a runtime panic (negative path slice). -/
def NamedObject.GeneratePatch (d : NamedObject) (p : Path) (v : Value) :
    Path × Value × Option GoErr :=
  if p.isEmpty then (p, v, none)
  else
    let out := d.Walk p genArgs
    let validPath := genValid p out.log
    match out.res with
    | .ok _ => (validPath, v, none)
    | .error err =>
      if validPath.length = p.length then (validPath, v, none)
      else if ¬ err.isNotFound then (validPath, v, some err)
      else
        let firstIdx := validPath.length
        match isArrayAt p ((firstIdx : Int) - 1) with
        | none => (validPath, v, some .panicSliceBounds)
        | some ia =>
          match ia.2 with
          | .index => (validPath, v, some .indexNotation)
          | .invalid =>
            match buildChain (p.drop firstIdx) with
            | .error e => (validPath, v, some e)
            | .ok steps =>
              (validPath, attachRoot .mapRoot (assembleSteps steps (p.getLastD "") v), none)
          | .traversal =>
            if p.getD firstIdx "" = "-" then
              match buildChain (p.drop (firstIdx + 1)) with
              | .error e => (validPath, v, some e)
              | .ok steps =>
                (validPath, attachRoot .arrRoot (assembleSteps steps (p.getLastD "") v), none)
            else
              match buildChain (p.drop firstIdx) with
              | .error e => (validPath, v, some e)
              | .ok steps =>
                (validPath, attachRoot .nilRoot (assembleSteps steps (p.getLastD "") v), none)

/-- Source: `NamedObject.Set` — generate a patch, then walk the patch
path with a mutate function that writes the patch value.  The Go code
DISCARDS the `GeneratePatch` error (`p, v, _ := ...`); only the final
walk's error is surfaced.  A `GeneratePatch` panic aborts the Go
program before the walk, modelled by returning the unchanged document
with the panic marker. -/
def NamedObject.Set (d : NamedObject) (p : Path) (v : Value) :
    NamedObject × Option GoErr :=
  let g := d.GeneratePatch p v
  match g.2.2 with
  | some .panicSliceBounds => (d, some .panicSliceBounds)
  | _ =>
    let out := d.Walk g.1 { mutateFunc := some fun _ => g.2.1 }
    (afterWalk d g.1 out, errOf out.res)

/-! ## Specification-side definitions

Everything below is used to STATE properties about the embedded code:
well-formedness of documents, the claim-side descriptions the theorems
compare the code against, and the functional effect of successful
writes. -/

/-- A path without traversal-classified segments (no segment whose
first character is `-`). -/
def travFree (p : Path) : Prop := ∀ s ∈ p, getArrayKind s ≠ .traversal

/-- Well-formed documents: every object level has pairwise distinct
keys, as is automatic for real Go maps. -/
inductive WFDoc : Value → Prop
  | str (s : String) : WFDoc (.str s)
  | int (n : Int) : WFDoc (.int n)
  | bool (b : Bool) : WFDoc (.bool b)
  | null : WFDoc .null
  | obj {es : List (String × Value)} :
      (entryKeys es).Nodup → (∀ k v, (k, v) ∈ es → WFDoc v) → WFDoc (.obj es)
  | arr {xs : List Value} : (∀ x ∈ xs, WFDoc x) → WFDoc (.arr xs)

/-- The document contains a JSON null somewhere. -/
inductive ContainsNull : Value → Prop
  | here : ContainsNull .null
  | inObj {es : List (String × Value)} {k : String} {v : Value} :
      (k, v) ∈ es → ContainsNull v → ContainsNull (.obj es)
  | inArr {xs : List Value} {x : Value} :
      x ∈ xs → ContainsNull x → ContainsNull (.arr xs)

/-- Two documents built from the same key/value pairs with only
object-entry order differing: at every object level the sorted key
sequences agree and the values under each key are related; arrays are
related pointwise; scalars are equal. -/
inductive EquivDoc : Value → Value → Prop
  | str (s : String) : EquivDoc (.str s) (.str s)
  | int (n : Int) : EquivDoc (.int n) (.int n)
  | bool (b : Bool) : EquivDoc (.bool b) (.bool b)
  | null : EquivDoc .null .null
  | obj {es es' : List (String × Value)} :
      sortKeys (entryKeys es) = sortKeys (entryKeys es') →
      (∀ k v w, lookupEntry es k = some v → lookupEntry es' k = some w → EquivDoc v w) →
      EquivDoc (.obj es) (.obj es')
  | arrNil : EquivDoc (.arr []) (.arr [])
  | arrCons {x y : Value} {xs ys : List Value} :
      EquivDoc x y → EquivDoc (.arr xs) (.arr ys) →
      EquivDoc (.arr (x :: xs)) (.arr (y :: ys))

/-- `d'` is `d` with exactly one scalar replaced by a same-kind scalar
whose hash encoding differs (strings and bools: any different value;
ints: different decimal rendering). -/
inductive ScalarChanged : Value → Value → Prop
  | strC {s s' : String} : s ≠ s' → ScalarChanged (.str s) (.str s')
  | intC {m n : Int} : (toString m).data ≠ (toString n).data →
      ScalarChanged (.int m) (.int n)
  | boolC {b b' : Bool} : b ≠ b' → ScalarChanged (.bool b) (.bool b')
  | inObj {l₁ l₂ : List (String × Value)} {k : String} {v v' : Value} :
      ScalarChanged v v' →
      ScalarChanged (.obj (l₁ ++ (k, v) :: l₂)) (.obj (l₁ ++ (k, v') :: l₂))
  | inArr {l₁ l₂ : List Value} {v v' : Value} :
      ScalarChanged v v' →
      ScalarChanged (.arr (l₁ ++ v :: l₂)) (.arr (l₁ ++ v' :: l₂))

/-- The functional effect of a successful walk-with-mutation along a
resolving, traversal-free path: apply the final slot outcome at the
addressed position (overwrite the slot, remove the map key or array
element, or append to the array), leaving the rest unchanged.  At the
empty path the slot outcome addresses the root itself, where only an
overwrite is representable (the Go root mutation is a no-op, handled
separately by `afterWalk`). -/
def applyAt : Path → Value → SlotOut → Value
  | [], node, s =>
    match s with
    | .set x => x
    | .delete => node
    | .append _ => node
  | seg :: rest, node, s =>
    match node with
    | .obj es =>
      match lookupEntry es seg with
      | some child =>
        .obj (applySlotKey es seg
          (match rest with
           | [] => s
           | _ :: _ => .set (applyAt rest child s)))
      | none => node
    | .arr xs =>
      match parseInt32 seg with
      | .ok i =>
        if h : i < xs.length then
          .arr (applySlotIdx xs i
            (match rest with
             | [] => s
             | _ :: _ => .set (applyAt rest (xs.get ⟨i, h⟩) s)))
        else node
      | .error _ => node
    | _ => node

/-- Scalar values of the value model (string, number, boolean, null). -/
def Value.isScalar : Value → Bool
  | .str _ | .int _ | .bool _ | .null => true
  | .obj _ | .arr _ => false

/-! ## Association-list lemmas -/

theorem mem_of_lookupEntry {es : List (String × Value)} {k : String} {v : Value}
    (h : lookupEntry es k = some v) : (k, v) ∈ es := by
  induction es with
  | nil => simp [lookupEntry] at h
  | cons e rest ih =>
    obtain ⟨k', v'⟩ := e
    simp only [lookupEntry] at h
    split at h
    · cases h
      subst ‹k' = k›
      exact List.mem_cons_self _ _
    · exact List.mem_cons_of_mem _ (ih h)

theorem lookupEntry_of_mem_keys {es : List (String × Value)} {k : String}
    (h : k ∈ entryKeys es) : ∃ v, lookupEntry es k = some v := by
  induction es with
  | nil => simp [entryKeys] at h
  | cons e rest ih =>
    obtain ⟨k', v'⟩ := e
    simp only [entryKeys, List.map_cons, List.mem_cons] at h
    by_cases hk : k' = k
    · exact ⟨v', by simp [lookupEntry, hk]⟩
    · rcases h with h | h
      · exact absurd h.symm hk
      · obtain ⟨v, hv⟩ := ih h
        exact ⟨v, by simp [lookupEntry, hk, hv]⟩

theorem lookupEntry_of_mem_nodup {es : List (String × Value)} {k : String} {v : Value}
    (hn : (entryKeys es).Nodup) (hm : (k, v) ∈ es) : lookupEntry es k = some v := by
  induction es with
  | nil => simp at hm
  | cons e rest ih =>
    obtain ⟨k', v'⟩ := e
    simp only [entryKeys, List.map_cons, List.nodup_cons] at hn
    rcases List.mem_cons.1 hm with h | h
    · cases h
      simp [lookupEntry]
    · have hne : k' ≠ k := by
        intro he
        exact hn.1 (he ▸ (List.mem_map_of_mem Prod.fst h))
      simp only [lookupEntry, if_neg hne]
      exact ih hn.2 h

theorem updateKey_self {es : List (String × Value)} {k : String} {v : Value}
    (h : lookupEntry es k = some v) : updateKey es k v = es := by
  induction es with
  | nil => simp [lookupEntry] at h
  | cons e rest ih =>
    obtain ⟨k', v'⟩ := e
    simp only [lookupEntry] at h
    simp only [updateKey]
    split
    · rename_i hk
      rw [if_pos hk] at h
      cases h
      rfl
    · rename_i hk
      rw [ih (by simpa [if_neg hk] using h)]

theorem lookupEntry_updateKey_self {es : List (String × Value)} {k : String}
    {v w : Value} (h : lookupEntry es k = some v) :
    lookupEntry (updateKey es k w) k = some w := by
  induction es with
  | nil => simp [lookupEntry] at h
  | cons e rest ih =>
    obtain ⟨k', v'⟩ := e
    simp only [lookupEntry] at h
    simp only [updateKey]
    split
    · rename_i hk
      simp [lookupEntry, hk]
    · rename_i hk
      simp only [lookupEntry, if_neg hk]
      exact ih (by simpa [if_neg hk] using h)

theorem lookupEntry_updateKey_ne {es : List (String × Value)} {k k' : String}
    {w : Value} (h : k' ≠ k) :
    lookupEntry (updateKey es k' w) k = lookupEntry es k := by
  induction es with
  | nil => simp [updateKey, lookupEntry]
  | cons e rest ih =>
    obtain ⟨k₀, v₀⟩ := e
    simp only [updateKey]
    split
    · rename_i hk
      subst hk
      simp [lookupEntry, if_neg h]
    · simp only [lookupEntry]
      split
      · rfl
      · exact ih

theorem eraseKey_of_lookup_none {es : List (String × Value)} {k : String}
    (h : lookupEntry es k = none) : eraseKey es k = es := by
  induction es with
  | nil => rfl
  | cons e rest ih =>
    obtain ⟨k', v'⟩ := e
    simp only [lookupEntry] at h
    split at h
    · cases h
    · rename_i hk
      simp [eraseKey, hk, ih h]

theorem lookupEntry_eraseKey_self {es : List (String × Value)} {k : String}
    (hn : (entryKeys es).Nodup) : lookupEntry (eraseKey es k) k = none := by
  induction es with
  | nil => rfl
  | cons e rest ih =>
    obtain ⟨k', v'⟩ := e
    simp only [entryKeys, List.map_cons, List.nodup_cons] at hn
    simp only [eraseKey]
    split
    · rename_i hk
      subst hk
      cases hr : lookupEntry rest k' with
      | none => rfl
      | some w =>
        exact absurd (List.mem_map_of_mem Prod.fst (mem_of_lookupEntry hr)) hn.1
    · rename_i hk
      simp only [lookupEntry, if_neg hk]
      exact ih hn.2

theorem set_get_self {xs : List Value} {i : Nat} (h : i < xs.length) :
    xs.set i (xs.get ⟨i, h⟩) = xs := by
  induction xs generalizing i with
  | nil => rfl
  | cons x rest ih =>
    cases i with
    | zero => rfl
    | succ j => simpa [List.set] using ih (Nat.lt_of_succ_lt_succ h)

/-! ## C4 — segment classification (`GetArrayNotation`) -/

/-- C4, counterexample: the claim says `ArrayNotationTraversal` is
returned exactly for the segment `"-"`, but the source classifies by
the first character only: `"-x"` is classified as traversal although it
is not `"-"`.  (Likewise `"1x"` is classified as index although it is
not a decimal integer string.) -/
theorem C4_counterexample :
    getArrayKind "-x" = .traversal ∧ "-x" ≠ "-"
      ∧ getArrayKind "1x" = .index ∧ "1x" ≠ "1" := by
  refine ⟨rfl, by decide, rfl, by decide⟩

/-- C4, amended: `GetArrayNotation` classifies by the FIRST character
of the segment: traversal iff it starts with `-`, index iff it starts
with a decimal digit, invalid (ordinary key) iff it is empty or starts
with any other character. -/
theorem C4_first_char_classification (s : String) :
    (getArrayKind s = .traversal ↔ ∃ cs, s.data = '-' :: cs) ∧
    (getArrayKind s = .index ↔ ∃ c cs, s.data = c :: cs ∧ '0' ≤ c ∧ c ≤ '9') ∧
    (getArrayKind s = .invalid ↔
      (s.data = [] ∨ ∃ c cs, s.data = c :: cs ∧ c ≠ '-' ∧ ¬('0' ≤ c ∧ c ≤ '9'))) := by
  rcases hd : s.data with _ | ⟨c, cs⟩
  · have hk : getArrayKind s = .invalid := by simp [getArrayKind, hd]
    rw [hk]
    simp [hd]
  · by_cases h1 : c = '-'
    · subst h1
      have hk : getArrayKind s = .traversal := by simp [getArrayKind, hd]
      rw [hk]
      refine ⟨by simp, ⟨(fun h => nomatch h), ?_⟩, ⟨(fun h => nomatch h), ?_⟩⟩
      · rintro ⟨c', cs', hcc, hle, hge⟩
        injection hcc with hc _
        cases hc
        exact absurd hle (by decide)
      · rintro (h | ⟨c', cs', hcc, hne, _⟩)
        · cases h
        · injection hcc with hc _
          exact absurd hc.symm hne
    · by_cases h2 : '0' ≤ c ∧ c ≤ '9'
      · have hk : getArrayKind s = .index := by simp [getArrayKind, hd, h1, h2]
        rw [hk]
        refine ⟨⟨(fun h => nomatch h), ?_⟩,
          ⟨fun _ => ⟨c, cs, rfl, h2⟩, fun _ => rfl⟩, ⟨(fun h => nomatch h), ?_⟩⟩
        · rintro ⟨cs', hcc⟩
          injection hcc with hc _
          exact absurd hc h1
        · rintro (h | ⟨c', cs', hcc, _, hnd⟩)
          · cases h
          · injection hcc with hc _
            cases hc
            exact absurd h2 hnd
      · have hk : getArrayKind s = .invalid := by simp [getArrayKind, hd, h1, h2]
        rw [hk]
        refine ⟨⟨(fun h => nomatch h), ?_⟩, ⟨(fun h => nomatch h), ?_⟩,
          ⟨fun _ => Or.inr ⟨c, cs, rfl, h1, h2⟩, fun _ => rfl⟩⟩
        · rintro ⟨cs', hcc⟩
          injection hcc with hc _
          exact absurd hc h1
        · rintro ⟨c', cs', hcc, hle, hge⟩
          injection hcc with hc _
          cases hc
          exact absurd ⟨hle, hge⟩ h2

/-! ## C2 — array traversal semantics of `walk` -/

theorem firstHit_res_eq (f : Nat → Value → WalkOut) (xsFull : List Value)
    (failOut : WalkOut) :
    ∀ (xs : List Value) (i : Nat),
      (firstHit f xsFull failOut xs i).res =
        (match (List.enumFrom i xs).findSome? (fun ix =>
            match (f ix.1 ix.2).res with
            | .ok v => some v
            | .error _ => none) with
        | some v => .ok v
        | none => failOut.res) := by
  intro xs
  induction xs with
  | nil => intro i; rfl
  | cons x rest ih =>
    intro i
    simp only [firstHit, List.enumFrom, List.findSome?]
    cases hr : (f i x).res with
    | ok v => simp [hr]
    | error e => simp [hr, ih]

theorem collectAll_vals_eq (f : Nat → Value → WalkOut) :
    ∀ (xs : List Value) (i : Nat),
      (collectAll f xs i).2.1 =
        (List.enumFrom i xs).filterMap (fun ix =>
          match (f ix.1 ix.2).res with
          | .ok v => some v
          | .error _ => none) := by
  intro xs
  induction xs with
  | nil => intro i; rfl
  | cons x rest ih =>
    intro i
    simp only [collectAll, List.enumFrom, List.filterMap]
    cases hr : (f i x).res with
    | ok v => simp [hr, ih]
    | error e => simp [hr, ih]

/-- C2 (confirmed): when `walk` reaches an array through a
traversal-classified segment it tries the elements in ascending index
order.  With `matchAll` false it returns the first element value whose
sub-walk succeeds, or `NotFound` for `"-"` when none does; with
`matchAll` true it attempts every element, ignores failing sub-walks,
and returns `NotFound` on zero successes, the single value unwrapped on
one, and the list of values on several. -/
theorem C2_traversal_semantics (xs : List Value) (seg : String) (rest : Path)
    (args : WalkArgs) (h : getArrayKind seg = .traversal) :
    (args.matchAll = false →
      (walk (seg :: rest) (.arr xs) args).res =
        (match (List.enumFrom 0 xs).findSome? (fun ix =>
            match (walk rest ix.2 (args.pushTraversal (toString ix.1))).res with
            | .ok v => some v
            | .error _ => none) with
        | some v => .ok v
        | none => .error (.notFound "-"))) ∧
    (args.matchAll = true →
      (walk (seg :: rest) (.arr xs) args).res =
        (match (List.enumFrom 0 xs).filterMap (fun ix =>
            match (walk rest ix.2 (args.pushTraversal (toString ix.1))).res with
            | .ok v => some v
            | .error _ => none) with
        | [] => .error (.notFound "-")
        | [v] => .ok v
        | vs => .ok (.arr vs))) := by
  constructor
  · intro hm
    simp only [walk, h, hm, if_neg (Bool.false_ne_true)]
    rw [firstHit_res_eq]
  · intro hm
    simp only [walk, h, hm, if_pos rfl]
    rw [← collectAll_vals_eq (fun i x => walk rest x (args.pushTraversal (toString i)))]
    rcases hc : (collectAll (fun i x => walk rest x (args.pushTraversal (toString i))) xs 0).2.1
      with _ | ⟨v, _ | ⟨w, vs⟩⟩ <;> simp [hc]

/-- C2, witness: a concrete traversal walk resolved through the
theorem. -/
theorem C2_traversal_semantics_witness :
    (walk ["-"] (.arr [.str "x", .int 1]) {}).res = .ok (.str "x") := by
  have h := (C2_traversal_semantics [.str "x", .int 1] "-" [] {} rfl).1 rfl
  rw [h]
  rfl

/-! ## C10 — hashing a document containing JSON null -/

/-- Every error the hasher can produce is an `unsupportedHashType`
(there is no other failing arm in `doHash`). -/
theorem hash_err_unsupported (N : Nat) :
    (∀ v : Value, sizeOf v ≤ N → ∀ k e, (doHash k v).2 = some e →
      ∃ m, e = .unsupportedHashType m) ∧
    (∀ es : List (String × Value), sizeOf es ≤ N → ∀ ks e,
      (hashSortedKeys es ks).2 = some e → ∃ m, e = .unsupportedHashType m) ∧
    (∀ xs : List Value, sizeOf xs ≤ N → ∀ k e, (hashArray k xs).2 = some e →
      ∃ m, e = .unsupportedHashType m) := by
  induction N with
  | zero =>
    refine ⟨fun v hv => ?_, fun es hes => ?_, fun xs hxs => ?_⟩
    · cases v <;> simp at hv
    · cases es <;> simp at hes
    · cases xs <;> simp at hxs
  | succ N ih =>
    obtain ⟨ihV, ihK, ihA⟩ := ih
    refine ⟨fun v hv k e he => ?_, fun es hes ks e he => ?_, fun xs hxs k e he => ?_⟩
    · cases v with
      | str s => simp [doHash] at he
      | int n => simp [doHash] at he
      | bool b => cases b <;> simp [doHash] at he
      | null =>
        simp only [doHash] at he
        cases he
        exact ⟨_, rfl⟩
      | arr xs =>
        simp only [doHash] at he
        exact ihA xs (by simp at hv; omega) k e he
      | obj es =>
        simp only [doHash] at he
        exact ihK es (by simp at hv; omega) _ e he
    · induction ks with
      | nil => simp [hashSortedKeys] at he
      | cons k' ks' ihks =>
        rw [hashSortedKeys] at he
        cases hl : lookupEntry es k' with
        | none =>
          rw [hl] at he
          simp only at he
          cases he
          exact ⟨_, rfl⟩
        | some v =>
          rw [hl] at he
          simp only at he
          cases hdh : (doHash k' v).2 with
          | some e' =>
            rw [hdh] at he
            simp only at he
            cases he
            exact ihV v (by have := sizeOf_lookupEntry hl; omega) k' e hdh
          | none =>
            rw [hdh] at he
            simp only at he
            exact ihks he
    · cases xs with
      | nil => simp [hashArray] at he
      | cons x rest =>
        rw [hashArray] at he
        simp only at he
        have hx : sizeOf x ≤ N := by simp at hxs; omega
        have hr : sizeOf rest ≤ N := by simp at hxs; omega
        cases hex : (doHash k x).2 with
        | some e' =>
          rw [hex] at he
          simp only [Option.some_orElse] at he
          cases he
          exact ihV x hx k e hex
        | none =>
          rw [hex] at he
          simp only [Option.none_orElse] at he
          exact ihA rest hr k e he

/-- A failing value under a key of the sorted key list makes the whole
object hash fail. -/
theorem hashSortedKeys_err_propagates {es : List (String × Value)} {k₀ : String}
    {v : Value} (hl : lookupEntry es k₀ = some v) (hv : (doHash k₀ v).2.isSome) :
    ∀ ks, k₀ ∈ ks → (hashSortedKeys es ks).2.isSome := by
  intro ks
  induction ks with
  | nil => intro h; simp at h
  | cons k' ks' ih =>
    intro hmem
    rw [hashSortedKeys]
    cases hw : lookupEntry es k' with
    | none => simp
    | some w =>
      simp only
      cases hdw : (doHash k' w).2 with
      | some e => simp
      | none =>
        simp only [Option.isSome_some, Option.isSome_none]
        have hne : k' ≠ k₀ := by
          intro he
          subst he
          rw [hw] at hl
          cases hl
          rw [hdw] at hv
          simp at hv
        rcases List.mem_cons.1 hmem with h | h
        · exact absurd h.symm hne
        · exact ih h

/-- A failing element makes the whole array hash fail. -/
theorem hashArray_err_propagates {x : Value} {k : String}
    (hx : (doHash k x).2.isSome) : ∀ xs, x ∈ xs → (hashArray k xs).2.isSome := by
  intro xs
  induction xs with
  | nil => intro h; simp at h
  | cons y rest ih =>
    intro hm
    rw [hashArray]
    simp only
    cases hy : (doHash k y).2 with
    | some e => simp [Option.some_orElse]
    | none =>
      simp only [Option.none_orElse]
      rcases List.mem_cons.1 hm with h | h
      · subst h
        rw [hy] at hx
        simp at hx
      · exact ih h

/-- A value containing a null somewhere fails to hash (under any field
name). -/
theorem doHash_containsNull {v : Value} (hn : ContainsNull v) :
    WFDoc v → ∀ k, (doHash k v).2.isSome := by
  induction hn with
  | here => intro _ k; simp [doHash]
  | @inObj es k₀ v₀ hm _ ih =>
    intro hwf k
    cases hwf with
    | obj hnd hall =>
      have hv₀ := ih (hall _ _ hm) k₀
      have hl : lookupEntry es k₀ = some v₀ := lookupEntry_of_mem_nodup hnd hm
      have hks : k₀ ∈ sortKeys (entryKeys es) :=
        ((List.perm_insertionSort _ _).mem_iff).2 (List.mem_map_of_mem Prod.fst hm)
      simpa [doHash] using hashSortedKeys_err_propagates hl hv₀ _ hks
  | @inArr xs x hm _ ih =>
    intro hwf k
    cases hwf with
    | arr hall =>
      have hx := ih (hall _ hm) k
      simpa [doHash] using hashArray_err_propagates hx xs hm

/-- C10 (confirmed): hashing any well-formed document that contains a
JSON null anywhere fails with an `UnsupportedHashType` error (the
`doHash` type switch has no case for nil, so such a document cannot be
fingerprinted); `Hash` and `HashStr` both report the error of
`getOrderedHash`. -/
theorem C10_null_unhashable (d : NamedObject) (hwf : WFDoc (.obj d))
    (hn : ContainsNull (.obj d)) :
    ∃ m, (getOrderedHash d).2 = some (.unsupportedHashType m) := by
  have h1 : (doHash "" (.obj d)).2.isSome := doHash_containsNull hn hwf ""
  have h2 : (doHash "" (.obj d)).2 = (getOrderedHash d).2 := by
    simp [doHash, getOrderedHash]
  rw [h2] at h1
  cases he : (getOrderedHash d).2 with
  | none => rw [he] at h1; simp at h1
  | some e =>
    obtain ⟨m, hm⟩ := (hash_err_unsupported (sizeOf d)).2.1 d (le_refl _)
      (sortKeys (entryKeys d)) e (by simpa [getOrderedHash] using he)
    exact ⟨m, by rw [hm]⟩

/-- C10, witness: the theorem applied to the concrete document
`[("a", null)]`. -/
theorem C10_null_unhashable_witness :
    ∃ m, (getOrderedHash [("a", Value.null)]).2 = some (.unsupportedHashType m) := by
  refine C10_null_unhashable [("a", Value.null)] ?_ ?_
  · refine WFDoc.obj (by simp [entryKeys]) ?_
    rintro k v hm
    simp at hm
    rw [hm.2]
    exact WFDoc.null
  · exact @ContainsNull.inObj [("a", Value.null)] "a" Value.null (by simp) ContainsNull.here

/-! ## C6 — hash is independent of object entry order -/

/-- Core of C6: `EquivDoc`-related values hash to the same stream and
error (strong induction on the size of the first value). -/
theorem doHash_equivDoc (N : Nat) :
    ∀ v w : Value, sizeOf v ≤ N → EquivDoc v w → ∀ k, doHash k v = doHash k w := by
  induction N with
  | zero => intro v w hv; cases v <;> simp at hv
  | succ N ih =>
    intro v w hv heq k
    cases heq with
    | str s => rfl
    | int n => rfl
    | bool b => rfl
    | null => rfl
    | arrNil => rfl
    | @arrCons x y xs ys hxy hrest =>
      have h1 : doHash k x = doHash k y := ih x y (by simp at hv; omega) hxy k
      have h2 : doHash k (.arr xs) = doHash k (.arr ys) :=
        ih (.arr xs) (.arr ys) (by simp at hv ⊢; omega) hrest k
      have h2' : hashArray k xs = hashArray k ys := by simpa [doHash] using h2
      simp only [doHash, hashArray]
      rw [h1, h2']
    | @obj es es' hsort hvals =>
      have hes : sizeOf es ≤ N := by simp at hv; omega
      have hKS : ∀ ks, (∀ j ∈ ks, j ∈ entryKeys es) →
          hashSortedKeys es ks = hashSortedKeys es' ks := by
        intro ks
        induction ks with
        | nil => intro _; simp [hashSortedKeys]
        | cons j ks' ihks =>
          intro hmem
          obtain ⟨v₀, hl⟩ := lookupEntry_of_mem_keys (hmem j (List.mem_cons_self _ _))
          have hj' : j ∈ entryKeys es' := by
            have h1 : j ∈ sortKeys (entryKeys es) :=
              ((List.perm_insertionSort _ _).mem_iff).2 (hmem j (List.mem_cons_self _ _))
            rw [hsort] at h1
            exact (List.perm_insertionSort _ _).mem_iff.1 h1
          obtain ⟨w₀, hl'⟩ := lookupEntry_of_mem_keys hj'
          have hvw : doHash j v₀ = doHash j w₀ := by
            have hsz : sizeOf v₀ ≤ N := by
              have := sizeOf_lookupEntry hl
              omega
            exact ih v₀ w₀ hsz (hvals j v₀ w₀ hl hl') j
          rw [hashSortedKeys, hashSortedKeys, hl, hl']
          simp only
          rw [hvw, ihks (fun j' hj' => hmem j' (List.mem_cons_of_mem _ hj'))]
      have hmem : ∀ j ∈ sortKeys (entryKeys es), j ∈ entryKeys es :=
        fun j hj => (List.perm_insertionSort _ _).mem_iff.1 hj
      simp only [doHash]
      rw [← hsort, hKS _ hmem]

/-- C6 (confirmed): two well-typed documents built from the same
key/value pairs with only object-entry order differing (at any depth)
produce the same hasher input stream and the same error, so `Hash`
returns the same 64-bit value and `HashStr` the same string. -/
theorem C6_hash_order_independence (d d' : NamedObject)
    (h : EquivDoc (.obj d) (.obj d')) :
    getOrderedHash d = getOrderedHash d' := by
  have := doHash_equivDoc (sizeOf (Value.obj d)) (.obj d) (.obj d') (le_refl _) h ""
  simpa [doHash, getOrderedHash] using this

/-- C6, witness: the same two entries inserted in both orders. -/
theorem C6_hash_order_independence_witness :
    getOrderedHash [("b", Value.int 2), ("a", Value.str "x")]
      = getOrderedHash [("a", Value.str "x"), ("b", Value.int 2)] := by
  refine C6_hash_order_independence _ _ (EquivDoc.obj (by rfl) ?_)
  intro k v w hv hw
  by_cases hb : "b" = k
  · subst hb
    simp [lookupEntry] at hv hw
    subst hv
    subst hw
    exact EquivDoc.int 2
  · by_cases ha : "a" = k
    · subst ha
      simp [lookupEntry] at hv hw
      subst hv
      subst hw
      exact EquivDoc.str "x"
    · simp [lookupEntry, hb, ha] at hv

/-! ## C7 — hash sensitivity -/

theorem hashArray_append (k : String) (a b : List Value) :
    hashArray k (a ++ b) =
      ((hashArray k a).1 ++ (hashArray k b).1, (hashArray k a).2 <|> (hashArray k b).2) := by
  induction a with
  | nil => simp [hashArray, Option.none_orElse]
  | cons x a' ih =>
    rw [List.cons_append, hashArray, hashArray, ih]
    cases (doHash k x).2 <;>
      simp [Option.some_orElse, Option.none_orElse, List.append_assoc]

theorem orElse_eq_none {α : Type} {x y : Option α} :
    (x <|> y) = none ↔ x = none ∧ y = none := by
  cases x <;> simp [Option.some_orElse, Option.none_orElse]

/-- Error-free object hashing: the stream is the concatenation, over
the key list, of the key bytes followed by the value stream, and every
key resolves to an error-free value. -/
theorem hashSortedKeys_stream_of_err_none {es : List (String × Value)} :
    ∀ ks, (hashSortedKeys es ks).2 = none →
      (hashSortedKeys es ks).1 =
        (ks.map (fun j => j.data ++ (doHash j ((lookupEntry es j).getD .null)).1)).flatten
      ∧ ∀ j ∈ ks, ∃ w, lookupEntry es j = some w ∧ (doHash j w).2 = none := by
  intro ks
  induction ks with
  | nil => intro _; exact ⟨by simp [hashSortedKeys], by simp⟩
  | cons j ks' ih =>
    intro hnone
    cases hl : lookupEntry es j with
    | none =>
      rw [hashSortedKeys, hl] at hnone
      simp at hnone
    | some w =>
      cases hd : (doHash j w).2 with
      | some e =>
        rw [hashSortedKeys, hl] at hnone
        simp only at hnone
        rw [hd] at hnone
        simp at hnone
      | none =>
        have hn' : (hashSortedKeys es ks').2 = none := by
          rw [hashSortedKeys, hl] at hnone
          simp only at hnone
          rw [hd] at hnone
          exact hnone
        obtain ⟨ihs, ihf⟩ := ih hn'
        constructor
        · rw [hashSortedKeys, hl]
          simp only
          rw [hd]
          simp only [List.map_cons, List.flatten_cons, hl, Option.getD_some]
          rw [ihs]
        · intro j' hj'
          rcases List.mem_cons.1 hj' with h | h
          · exact h ▸ ⟨w, hl, hd⟩
          · exact ihf j' h

theorem lookupEntry_middle_self {l₁ l₂ : List (String × Value)} {k₀ : String}
    {x : Value} (h : k₀ ∉ entryKeys l₁) :
    lookupEntry (l₁ ++ (k₀, x) :: l₂) k₀ = some x := by
  induction l₁ with
  | nil => simp [lookupEntry]
  | cons e rest ih =>
    obtain ⟨k', v'⟩ := e
    have hne : k' ≠ k₀ := fun hcon => h (by subst hcon; simp [entryKeys])
    have hrest : k₀ ∉ entryKeys rest := fun hcon =>
      h (by simp [entryKeys] at hcon ⊢; exact Or.inr hcon)
    simp only [List.cons_append, lookupEntry, if_neg hne]
    exact ih hrest

theorem lookupEntry_middle_ne {l₁ l₂ : List (String × Value)} {k₀ j : String}
    {x x' : Value} (h : j ≠ k₀) :
    lookupEntry (l₁ ++ (k₀, x) :: l₂) j = lookupEntry (l₁ ++ (k₀, x') :: l₂) j := by
  induction l₁ with
  | nil =>
    have hne : k₀ ≠ j := fun hcon => h hcon.symm
    simp only [List.nil_append, lookupEntry, if_neg hne]
  | cons e rest ih =>
    obtain ⟨k', v'⟩ := e
    simp only [List.cons_append, lookupEntry]
    split
    · rfl
    · exact ih

theorem entryKeys_middle (l₁ l₂ : List (String × Value)) (k₀ : String) (x : Value) :
    entryKeys (l₁ ++ (k₀, x) :: l₂) = entryKeys l₁ ++ k₀ :: entryKeys l₂ := by
  simp [entryKeys]

/-- Core of C7 (amended part): a single same-kind scalar change with a
different encoding changes the hash stream of any well-formed document
both of whose versions hash without error. -/
theorem scalarChanged_stream_ne {v v' : Value} (hc : ScalarChanged v v') :
    WFDoc v → ∀ k, (doHash k v).2 = none → (doHash k v').2 = none →
      (doHash k v).1 ≠ (doHash k v').1 := by
  induction hc with
  | @strC s s' hne =>
    intro _ k _ _
    simp only [doHash]
    exact fun h => hne (String.ext h)
  | @intC m n hne =>
    intro _ k _ _
    simpa [doHash] using hne
  | @boolC b b' hne =>
    intro _ k _ _
    cases b <;> cases b' <;> simp [doHash] at hne ⊢ <;> decide
  | @inArr l₁ l₂ x x' hxx ih =>
    intro hwf k he he'
    have hwx : WFDoc x := by
      cases hwf with
      | arr hall => exact hall x (by simp)
    have hmid : ∀ (y : Value), hashArray k (l₁ ++ y :: l₂)
        = ((hashArray k l₁).1 ++ ((doHash k y).1 ++ (hashArray k l₂).1),
           (hashArray k l₁).2 <|> ((doHash k y).2 <|> (hashArray k l₂).2)) := by
      intro y
      rw [hashArray_append, hashArray]
    simp only [doHash] at he he' ⊢
    rw [hmid x] at he
    rw [hmid x'] at he'
    rw [hmid x, hmid x']
    simp only [orElse_eq_none] at he he'
    intro hcontra
    exact ih hwx k he.2.1 he'.2.1
      (List.append_cancel_right (List.append_cancel_left hcontra))
  | @inObj l₁ l₂ k₀ x x' hxx ih =>
    intro hwf k he he'
    have hnd : (entryKeys (l₁ ++ (k₀, x) :: l₂)).Nodup := by
      cases hwf with
      | obj hnd _ => exact hnd
    have hwx : WFDoc x := by
      cases hwf with
      | obj _ hall => exact hall k₀ x (by simp)
    have hkeq : entryKeys (l₁ ++ (k₀, x) :: l₂) = entryKeys (l₁ ++ (k₀, x') :: l₂) := by
      rw [entryKeys_middle, entryKeys_middle]
    have hsplit : k₀ ∉ entryKeys l₁ ∧ k₀ ∉ entryKeys l₂ := by
      rw [entryKeys_middle] at hnd
      have h1 : (k₀ :: (entryKeys l₁ ++ entryKeys l₂)).Nodup := List.nodup_middle.1 hnd
      have h2 := (List.nodup_cons.1 h1).1
      rw [List.mem_append] at h2
      push_neg at h2
      exact h2
    simp only [doHash] at he he' ⊢
    obtain ⟨hs, hf⟩ := hashSortedKeys_stream_of_err_none _ he
    obtain ⟨hs', hf'⟩ := hashSortedKeys_stream_of_err_none _ he'
    rw [hs, hs', ← hkeq]
    have hmem : k₀ ∈ sortKeys (entryKeys (l₁ ++ (k₀, x) :: l₂)) := by
      refine (List.perm_insertionSort _ _).mem_iff.2 ?_
      rw [entryKeys_middle]
      exact List.mem_append.2 (Or.inr (List.mem_cons_self _ _))
    have hndks : (sortKeys (entryKeys (l₁ ++ (k₀, x) :: l₂))).Nodup :=
      ((List.perm_insertionSort _ _).nodup_iff).2 hnd
    obtain ⟨A, B, hAB⟩ := List.append_of_mem hmem
    rw [hAB] at hndks
    have hk₀A : k₀ ∉ A := by
      intro hmemA
      exact (List.nodup_append.1 hndks).2.2 hmemA (List.mem_cons_self _ _)
    have hk₀B : k₀ ∉ B := by
      have := (List.nodup_append.1 hndks).2.1
      exact (List.nodup_cons.1 this).1
    have hlx : lookupEntry (l₁ ++ (k₀, x) :: l₂) k₀ = some x :=
      lookupEntry_middle_self hsplit.1
    have hlx' : lookupEntry (l₁ ++ (k₀, x') :: l₂) k₀ = some x' :=
      lookupEntry_middle_self hsplit.1
    have hexn : (doHash k₀ x).2 = none := by
      obtain ⟨w, hw, hd⟩ := hf k₀ (by rw [hAB]; exact List.mem_append.2 (Or.inr (List.mem_cons_self _ _)))
      rw [hlx] at hw
      cases hw
      exact hd
    have hexn' : (doHash k₀ x').2 = none := by
      obtain ⟨w, hw, hd⟩ := hf' k₀ (by
        rw [← hkeq, hAB]
        exact List.mem_append.2 (Or.inr (List.mem_cons_self _ _)))
      rw [hlx'] at hw
      cases hw
      exact hd
    rw [hAB, List.map_append, List.map_cons, List.flatten_append, List.flatten_cons,
        List.map_append, List.map_cons, List.flatten_append, List.flatten_cons]
    have hmapA : A.map (fun j => j.data ++ (doHash j ((lookupEntry (l₁ ++ (k₀, x') :: l₂) j).getD .null)).1)
        = A.map (fun j => j.data ++ (doHash j ((lookupEntry (l₁ ++ (k₀, x) :: l₂) j).getD .null)).1) := by
      refine List.map_congr_left ?_
      intro j hj
      have hjne : j ≠ k₀ := fun hcon => hk₀A (hcon ▸ hj)
      rw [lookupEntry_middle_ne hjne]
    have hmapB : B.map (fun j => j.data ++ (doHash j ((lookupEntry (l₁ ++ (k₀, x') :: l₂) j).getD .null)).1)
        = B.map (fun j => j.data ++ (doHash j ((lookupEntry (l₁ ++ (k₀, x) :: l₂) j).getD .null)).1) := by
      refine List.map_congr_left ?_
      intro j hj
      have hjne : j ≠ k₀ := fun hcon => hk₀B (hcon ▸ hj)
      rw [lookupEntry_middle_ne hjne]
    rw [hmapA, hmapB]
    simp only [hlx, hlx', Option.getD_some]
    intro hcontra
    have h1 := List.append_cancel_left hcontra
    have h2 := List.append_cancel_right h1
    have h3 := List.append_cancel_left h2
    exact ih hwx k₀ hexn hexn' h3

/-- C7 (corrected), counterexample: swapping the two (distinct) array
elements `"ab"` and `"abab"` produces a different document with an
IDENTICAL hasher input stream — the hash emits no delimiters between
values, so `"ab" ++ "abab" = "abab" ++ "ab"`.  `Hash` and `HashStr` are
functions of that stream, so both are unchanged although an array was
reordered. -/
theorem hash_single_arr2 (k x y : String) :
    getOrderedHash [(k, .arr [.str x, .str y])] =
      (k.data ++ (x.data ++ y.data), none) := by
  have harr : doHash k (.arr [.str x, .str y]) = (x.data ++ y.data, none) := by
    simp [doHash, hashArray]
  have hsort : sortKeys (entryKeys [(k, Value.arr [.str x, .str y])]) = [k] := rfl
  simp only [getOrderedHash, hsort, hashSortedKeys, lookupEntry]
  split
  · rename_i heq
    rw [if_pos rfl] at heq
    exact absurd heq (by simp)
  · rename_i v heq
    rw [if_pos rfl] at heq
    injection heq with h2
    subst h2
    rw [harr]
    simp

theorem C7_counterexample :
    getOrderedHash [("a", .arr [.str "ab", .str "abab"])]
      = getOrderedHash [("a", .arr [.str "abab", .str "ab"])]
    ∧ ([("a", Value.arr [.str "ab", .str "abab"])] : NamedObject)
      ≠ [("a", Value.arr [.str "abab", .str "ab"])] := by
  constructor
  · rw [hash_single_arr2, hash_single_arr2]
    decide
  · intro h
    simp at h

/-- C7 (amended): changing one scalar to a same-kind scalar with a
different encoding (any different string, any different bool, any int
with a different decimal rendering) in a well-formed document that
hashes without error changes the hasher input stream, hence the
64-bit hash; array reorderings and key-set edits need not change it
(see the counterexample). -/
theorem C7_scalar_change_sensitivity (d d' : NamedObject)
    (hc : ScalarChanged (.obj d) (.obj d')) (hwf : WFDoc (.obj d))
    (he : (getOrderedHash d).2 = none) (he' : (getOrderedHash d').2 = none) :
    (getOrderedHash d).1 ≠ (getOrderedHash d').1 := by
  have h := scalarChanged_stream_ne hc hwf ""
    (by simpa [doHash, getOrderedHash] using he)
    (by simpa [doHash, getOrderedHash] using he')
  simpa [doHash, getOrderedHash] using h

/-- C7, witness for the amended theorem: changing the string under
`"a"` changes the stream. -/
theorem C7_scalar_change_sensitivity_witness :
    (getOrderedHash [("a", Value.str "x")]).1
      ≠ (getOrderedHash [("a", Value.str "y")]).1 := by
  refine C7_scalar_change_sensitivity _ _
    (@ScalarChanged.inObj [] [] "a" (.str "x") (.str "y") (ScalarChanged.strC (by decide)))
    ?_ ?_ ?_
  · refine WFDoc.obj (by simp [entryKeys]) ?_
    rintro k v hm
    simp at hm
    rw [hm.2]
    exact WFDoc.str "x"
  · simp [getOrderedHash, hashSortedKeys, doHash, sortKeys, entryKeys, lookupEntry,
      List.insertionSort, List.orderedInsert]
  · simp [getOrderedHash, hashSortedKeys, doHash, sortKeys, entryKeys, lookupEntry,
      List.insertionSort, List.orderedInsert]

/-! ## Step lemmas: one equation per `walk` branch -/

theorem walk_nil_read {node : Value} {args : WalkArgs}
    (h1 : args.matchFunc = none) (h2 : args.mutateFunc = none) :
    walk [] node args = ⟨[], .ok node, .set node⟩ := by
  simp [walk, h1, onMutateSlot, h2]

theorem walk_nil_gen {node : Value} {args : WalkArgs} {pred : Value → Path → Bool}
    (h1 : args.matchFunc = some pred) (h2 : pred node args.walkedPath = true)
    (h3 : args.mutateFunc = none) :
    walk [] node args = ⟨[.matched node args.walkedPath], .ok node, .set node⟩ := by
  simp [walk, h1, h2, onMutateSlot, h3]

theorem walk_nil_del {node : Value} {args : WalkArgs} {f : Value → Value}
    (h1 : args.matchFunc = none) (h2 : args.mutateFunc = some f)
    (h3 : f node = .null) :
    walk [] node args = ⟨[], .ok .null, .delete⟩ := by
  simp [walk, h1, onMutateSlot, h2, h3]

theorem walk_nil_mut {node v : Value} {args : WalkArgs} {f : Value → Value}
    (h1 : args.matchFunc = none) (h2 : args.mutateFunc = some f)
    (h3 : f node = v) (h4 : v ≠ .null) (h5 : args.appendOnMutate = false) :
    walk [] node args = ⟨[], .ok v, .set v⟩ := by
  simp only [walk, h1, onMutateSlot, h2, h3, h5]
  cases v with
  | null => exact absurd rfl h4
  | str s => rfl
  | int n => rfl
  | bool b => rfl
  | obj es => rfl
  | arr xs => rfl

theorem walk_obj_step {es : List (String × Value)} {seg : String} {rest : Path}
    {child : Value} {args : WalkArgs}
    (hk : getArrayKind seg = .invalid) (hl : lookupEntry es seg = some child) :
    walk (seg :: rest) (.obj es) args =
      ⟨(walk rest child (args.push seg)).log,
       (walk rest child (args.push seg)).res,
       match (walk rest child (args.push seg)).res with
       | .ok _ => .set (.obj (applySlotKey es seg (walk rest child (args.push seg)).slot))
       | .error _ => .set (.obj es)⟩ := by
  simp only [walk, hk, hl]
  cases hres : (walk rest child (args.push seg)).res <;> simp [hres]

theorem walk_obj_miss_deep {es : List (String × Value)} {seg : String} {rest : Path}
    {args : WalkArgs} (hk : getArrayKind seg = .invalid)
    (hl : lookupEntry es seg = none) (hrest : rest ≠ []) :
    walk (seg :: rest) (.obj es) args =
      ⟨[.missed (missPath args seg)], .error (.notFound seg), .set (.obj es)⟩ := by
  cases rest with
  | nil => exact absurd rfl hrest
  | cons a b => simp [walk, hk, hl]

theorem walk_obj_miss_read {es : List (String × Value)} {seg : String} {rest : Path}
    {args : WalkArgs} (hk : getArrayKind seg = .invalid)
    (hl : lookupEntry es seg = none) (hm : args.mutateFunc = none) :
    walk (seg :: rest) (.obj es) args =
      ⟨[.missed (missPath args seg)], .error (.notFound seg), .set (.obj es)⟩ := by
  cases rest with
  | nil => simp [walk, hk, hl, hm]
  | cons a b => simp [walk, hk, hl]

theorem walk_obj_miss_del {es : List (String × Value)} {seg : String}
    {args : WalkArgs} {f : Value → Value} (hk : getArrayKind seg = .invalid)
    (hl : lookupEntry es seg = none) (hm : args.mutateFunc = some f)
    (hf : f .null = .null) :
    walk [seg] (.obj es) args = ⟨[], .ok .null, .set (.obj es)⟩ := by
  simp [walk, hk, hl, hm, hf]

theorem walk_obj_miss_mut {es : List (String × Value)} {seg : String} {v : Value}
    {args : WalkArgs} {f : Value → Value} (hk : getArrayKind seg = .invalid)
    (hl : lookupEntry es seg = none) (hm : args.mutateFunc = some f)
    (hf : f .null = v) (hv : v ≠ .null) :
    walk [seg] (.obj es) args = ⟨[], .ok v, .set (.obj (es ++ [(seg, v)]))⟩ := by
  simp only [walk, hk, hl, hm, hf]
  cases v with
  | null => exact absurd rfl hv
  | str s => rfl
  | int n => rfl
  | bool b => rfl
  | obj es2 => rfl
  | arr xs => rfl

theorem walk_obj_arraykey {es : List (String × Value)} {seg : String} {rest : Path}
    {args : WalkArgs} (hk : getArrayKind seg ≠ .invalid) :
    walk (seg :: rest) (.obj es) args =
      ⟨[], .error (.notAnArray args.getKey), .set (.obj es)⟩ := by
  simp [walk, hk]

theorem walk_arr_step {xs : List Value} {seg : String} {rest : Path} {i : Nat}
    {args : WalkArgs} (hk : getArrayKind seg = .index)
    (hp : parseInt32 seg = .ok i) (hb : i < xs.length) :
    walk (seg :: rest) (.arr xs) args =
      ⟨(walk rest (xs.get ⟨i, hb⟩) (args.push seg)).log,
       (walk rest (xs.get ⟨i, hb⟩) (args.push seg)).res,
       match (walk rest (xs.get ⟨i, hb⟩) (args.push seg)).res with
       | .ok _ => .set (.arr (applySlotIdx xs i (walk rest (xs.get ⟨i, hb⟩) (args.push seg)).slot))
       | .error _ => .set (.arr xs)⟩ := by
  simp only [walk, hk, hp, hb, dif_pos]
  cases hres : (walk rest (xs.get ⟨i, hb⟩) (args.push seg)).res <;> simp [hres]

theorem walk_arr_oob {xs : List Value} {seg : String} {rest : Path} {i : Nat}
    {args : WalkArgs} (hk : getArrayKind seg = .index)
    (hp : parseInt32 seg = .ok i) (hb : ¬ i < xs.length) :
    walk (seg :: rest) (.arr xs) args =
      ⟨[.missed (missPath args seg)], .error (.notFound seg), .set (.arr xs)⟩ := by
  simp [walk, hk, hp, hb]

theorem walk_arr_parse_err {xs : List Value} {seg : String} {rest : Path} {e : GoErr}
    {args : WalkArgs} (hk : getArrayKind seg = .index)
    (hp : parseInt32 seg = .error e) :
    walk (seg :: rest) (.arr xs) args = ⟨[], .error e, .set (.arr xs)⟩ := by
  simp [walk, hk, hp]

theorem walk_arr_invalid {xs : List Value} {seg : String} {rest : Path}
    {args : WalkArgs} (hk : getArrayKind seg = .invalid) :
    walk (seg :: rest) (.arr xs) args =
      ⟨[], .error (.missingArrayTraversal args.getKey), .set (.arr xs)⟩ := by
  simp [walk, hk]

theorem walk_scalar {node : Value} {seg : String} {rest : Path} {args : WalkArgs}
    (hs : node.isScalar = true) (hn : node ≠ .null) :
    walk (seg :: rest) node args =
      ⟨[], .error (.notTraversable (args.getKey ++ " is " ++ kindName node)),
        .set node⟩ := by
  cases node with
  | str s => simp [walk, kindName]
  | int n => simp [walk, kindName]
  | bool b => simp [walk, kindName]
  | null => exact absurd rfl hn
  | obj es => simp [Value.isScalar] at hs
  | arr xs => simp [Value.isScalar] at hs

theorem walk_null_mid {seg : String} {rest : Path} {args : WalkArgs} :
    walk (seg :: rest) .null args =
      ⟨[], .error (.notTraversable (args.getKey ++ " is nil")), .set .null⟩ := by
  simp [walk]

/-- Composing a walk along a resolving, traversal-free prefix `q`: the
walk of `q ++ rst` behaves like the walk of `rst` started at the value
`w` that `q` resolves to (with the walked path extended by `q`), and on
success the final slot is the functional write `applyAt q` of the inner
slot outcome. -/
theorem walk_append_of_read_ok :
    ∀ (q : Path) (node : Value) (ra args : WalkArgs) (rst : Path) (w : Value),
    q ≠ [] → travFree q →
    ra.matchFunc = none → ra.mutateFunc = none →
    args.appendOnMutate = false →
    (walk q node ra).res = .ok w →
    (walk (q ++ rst) node args).log =
      (walk rst w { args with walkedPath := args.walkedPath ++ q }).log ∧
    (walk (q ++ rst) node args).res =
      (walk rst w { args with walkedPath := args.walkedPath ++ q }).res ∧
    (walk (q ++ rst) node args).slot =
      (match (walk rst w { args with walkedPath := args.walkedPath ++ q }).res with
       | .ok _ => SlotOut.set (applyAt q node
           (walk rst w { args with walkedPath := args.walkedPath ++ q }).slot)
       | .error _ => SlotOut.set node) := by
  intro q
  induction q with
  | nil => intro node ra args rst w hq; exact absurd rfl hq
  | cons seg q' ih =>
    intro node ra args rst w _ htf hmf hmu hao hread
    obtain ⟨ma, mf, mu, ao, wp⟩ := args
    simp only at hao
    subst hao
    -- Classify the head segment against the node.
    cases node with
    | null => rw [walk_null_mid] at hread; exact absurd hread (by simp)
    | str s =>
      rw [@walk_scalar (.str s) seg q' ra rfl (by simp)] at hread
      exact absurd hread (by simp)
    | int n =>
      rw [@walk_scalar (.int n) seg q' ra rfl (by simp)] at hread
      exact absurd hread (by simp)
    | bool b =>
      rw [@walk_scalar (.bool b) seg q' ra rfl (by simp)] at hread
      exact absurd hread (by simp)
    | obj es =>
      cases hk : getArrayKind seg with
      | traversal =>
        exact absurd hk (htf seg (List.mem_cons_self seg q'))
      | index =>
        rw [walk_obj_arraykey (by simp [hk])] at hread
        exact absurd hread (by simp)
      | invalid =>
        cases hl : lookupEntry es seg with
        | none =>
          rw [walk_obj_miss_read hk hl hmu] at hread
          exact absurd hread (by simp)
        | some child =>
          rw [walk_obj_step hk hl] at hread
          replace hread : (walk q' child (ra.push seg)).res = .ok w := hread
          rw [List.cons_append, walk_obj_step hk hl]
          cases q' with
          | nil =>
            -- Base: the prefix is the single segment `seg`.
            rw [walk_nil_read (by simp [WalkArgs.push, hmf]) (by simp [WalkArgs.push, hmu])]
              at hread
            replace hread : Except.ok (ε := GoErr) child = .ok w := hread
            simp only [Except.ok.injEq] at hread
            subst hread
            have hargs : WalkArgs.push ⟨ma, mf, mu, false, wp⟩ seg =
                ⟨ma, mf, mu, false, wp ++ [seg]⟩ := rfl
            rw [hargs]
            refine ⟨rfl, rfl, ?_⟩
            cases htr : (walk rst child ⟨ma, mf, mu, false, wp ++ [seg]⟩).res with
            | ok v => simp [htr, applyAt, hl]
            | error e => simp [htr]
          | cons s2 q'' =>
            have hargs : WalkArgs.push ⟨ma, mf, mu, false, wp⟩ seg =
                ⟨ma, mf, mu, false, wp ++ [seg]⟩ := rfl
            have htf' : travFree (s2 :: q'') :=
              fun s hs => htf s (List.mem_cons_of_mem seg hs)
            have hIH := ih child (ra.push seg) ⟨ma, mf, mu, false, wp ++ [seg]⟩ rst w
              (by simp) htf' (by simp [WalkArgs.push, hmf]) (by simp [WalkArgs.push, hmu])
              rfl hread
            rw [hargs]
            have hwp : (wp ++ [seg]) ++ (s2 :: q'') = wp ++ (seg :: s2 :: q'') := by
              simp
            rw [hwp] at hIH
            obtain ⟨ihlog, ihres, ihslot⟩ := hIH
            refine ⟨ihlog, ihres, ?_⟩
            cases htr : (walk rst w ⟨ma, mf, mu, false, wp ++ (seg :: s2 :: q'')⟩).res with
            | ok v =>
              simp only [htr] at ihres ihslot ⊢
              rw [ihres]
              dsimp only
              rw [ihslot]
              simp only [applyAt, hl]
            | error e =>
              simp only [htr] at ihres ⊢
              rw [ihres]
    | arr xs =>
      cases hk : getArrayKind seg with
      | traversal =>
        exact absurd hk (htf seg (List.mem_cons_self seg q'))
      | invalid =>
        rw [walk_arr_invalid hk] at hread
        exact absurd hread (by simp)
      | index =>
        cases hp : parseInt32 seg with
        | error e =>
          rw [walk_arr_parse_err hk hp] at hread
          exact absurd hread (by simp)
        | ok i =>
          by_cases hb : i < xs.length
          · rw [walk_arr_step hk hp hb] at hread
            replace hread : (walk q' (xs.get ⟨i, hb⟩) (ra.push seg)).res = .ok w := hread
            rw [List.cons_append, walk_arr_step hk hp hb]
            cases q' with
            | nil =>
              rw [walk_nil_read (by simp [WalkArgs.push, hmf]) (by simp [WalkArgs.push, hmu])]
                at hread
              replace hread : Except.ok (ε := GoErr) (xs.get ⟨i, hb⟩) = .ok w := hread
              simp only [Except.ok.injEq] at hread
              have hargs : WalkArgs.push ⟨ma, mf, mu, false, wp⟩ seg =
                  ⟨ma, mf, mu, false, wp ++ [seg]⟩ := rfl
              rw [hargs, hread]
              refine ⟨rfl, rfl, ?_⟩
              cases htr : (walk rst w ⟨ma, mf, mu, false, wp ++ [seg]⟩).res with
              | ok v => simp [htr, applyAt, hp, hb]
              | error e => simp [htr]
            | cons s2 q'' =>
              have hargs : WalkArgs.push ⟨ma, mf, mu, false, wp⟩ seg =
                  ⟨ma, mf, mu, false, wp ++ [seg]⟩ := rfl
              have htf' : travFree (s2 :: q'') :=
                fun s hs => htf s (List.mem_cons_of_mem seg hs)
              have hIH := ih (xs.get ⟨i, hb⟩) (ra.push seg)
                ⟨ma, mf, mu, false, wp ++ [seg]⟩ rst w
                (by simp) htf' (by simp [WalkArgs.push, hmf]) (by simp [WalkArgs.push, hmu])
                rfl hread
              rw [hargs]
              have hwp : (wp ++ [seg]) ++ (s2 :: q'') = wp ++ (seg :: s2 :: q'') := by
                simp
              rw [hwp] at hIH
              obtain ⟨ihlog, ihres, ihslot⟩ := hIH
              refine ⟨ihlog, ihres, ?_⟩
              cases htr : (walk rst w ⟨ma, mf, mu, false, wp ++ (seg :: s2 :: q'')⟩).res with
              | ok v =>
                simp only [htr] at ihres ihslot ⊢
                rw [ihres]
                dsimp only
                rw [ihslot]
                simp only [applyAt, hp, hb, dif_pos]
              | error e =>
                simp only [htr] at ihres ⊢
                rw [ihres]
          · rw [walk_arr_oob hk hp hb] at hread
            exact absurd hread (by simp)

theorem get_set_self {xs : List Value} {i : Nat} {v : Value}
    (h : i < (xs.set i v).length) : (xs.set i v).get ⟨i, h⟩ = v := by
  induction xs generalizing i with
  | nil => simp at h
  | cons x rest ih =>
    cases i with
    | zero => rfl
    | succ j => exact ih (by simpa using h)

/-- Reading back a traversal-free path that resolved before an
`applyAt`-overwrite at that same path yields the written value. -/
theorem walk_applyAt_set_read :
    ∀ (p : Path) (node : Value) (ra ra2 : WalkArgs) (w v : Value),
    travFree p →
    ra.matchFunc = none → ra.mutateFunc = none →
    ra2.matchFunc = none → ra2.mutateFunc = none →
    (walk p node ra).res = .ok w →
    (walk p (applyAt p node (.set v)) ra2).res = .ok v := by
  intro p
  induction p with
  | nil =>
    intro node ra ra2 w v _ _ _ hmf2 hmu2 _
    rw [show applyAt [] node (.set v) = v from rfl, walk_nil_read hmf2 hmu2]
  | cons seg rest ih =>
    intro node ra ra2 w v htf hmf hmu hmf2 hmu2 hread
    have htf' : travFree rest := fun s hs => htf s (List.mem_cons_of_mem seg hs)
    cases node with
    | null => rw [walk_null_mid] at hread; exact absurd hread (by simp)
    | str s =>
      rw [@walk_scalar (.str s) seg rest ra rfl (by simp)] at hread
      exact absurd hread (by simp)
    | int n =>
      rw [@walk_scalar (.int n) seg rest ra rfl (by simp)] at hread
      exact absurd hread (by simp)
    | bool b =>
      rw [@walk_scalar (.bool b) seg rest ra rfl (by simp)] at hread
      exact absurd hread (by simp)
    | obj es =>
      cases hk : getArrayKind seg with
      | traversal => exact absurd hk (htf seg (List.mem_cons_self seg rest))
      | index =>
        rw [walk_obj_arraykey (by simp [hk])] at hread
        exact absurd hread (by simp)
      | invalid =>
        cases hl : lookupEntry es seg with
        | none =>
          rw [walk_obj_miss_read hk hl hmu] at hread
          exact absurd hread (by simp)
        | some child =>
          rw [walk_obj_step hk hl] at hread
          replace hread : (walk rest child (ra.push seg)).res = .ok w := hread
          cases rest with
          | nil =>
            have happ : applyAt [seg] (.obj es) (.set v) =
                .obj (updateKey es seg v) := by
              simp [applyAt, hl, applySlotKey]
            rw [happ, walk_obj_step hk (lookupEntry_updateKey_self hl)]
            have hnil : (walk ([] : Path) v (ra2.push seg)).res = .ok v := by
              rw [walk_nil_read (by simp [WalkArgs.push, hmf2]) (by simp [WalkArgs.push, hmu2])]
            simp only [hnil]
          | cons s2 rest' =>
            have happ : applyAt (seg :: s2 :: rest') (.obj es) (.set v) =
                .obj (updateKey es seg (applyAt (s2 :: rest') child (.set v))) := by
              simp [applyAt, hl, applySlotKey]
            rw [happ, walk_obj_step hk (lookupEntry_updateKey_self hl)]
            have hrec := ih child (ra.push seg) (ra2.push seg) w v htf'
              (by simp [WalkArgs.push, hmf]) (by simp [WalkArgs.push, hmu])
              (by simp [WalkArgs.push, hmf2]) (by simp [WalkArgs.push, hmu2]) hread
            simp only [hrec]
    | arr xs =>
      cases hk : getArrayKind seg with
      | traversal => exact absurd hk (htf seg (List.mem_cons_self seg rest))
      | invalid =>
        rw [walk_arr_invalid hk] at hread
        exact absurd hread (by simp)
      | index =>
        cases hp : parseInt32 seg with
        | error e =>
          rw [walk_arr_parse_err hk hp] at hread
          exact absurd hread (by simp)
        | ok i =>
          by_cases hb : i < xs.length
          · rw [walk_arr_step hk hp hb] at hread
            replace hread : (walk rest (xs.get ⟨i, hb⟩) (ra.push seg)).res = .ok w := hread
            cases rest with
            | nil =>
              have happ : applyAt [seg] (.arr xs) (.set v) =
                  .arr (xs.set i v) := by
                simp [applyAt, hp, hb, applySlotIdx]
              have hb2 : i < (xs.set i v).length := by simpa using hb
              rw [happ, walk_arr_step hk hp hb2, get_set_self]
              have hnil : (walk ([] : Path) v (ra2.push seg)).res = .ok v := by
                rw [walk_nil_read (by simp [WalkArgs.push, hmf2]) (by simp [WalkArgs.push, hmu2])]
              simp only [hnil]
            | cons s2 rest' =>
              have happ : applyAt (seg :: s2 :: rest') (.arr xs) (.set v) =
                  .arr (xs.set i (applyAt (s2 :: rest') (xs.get ⟨i, hb⟩) (.set v))) := by
                simp [applyAt, hp, hb, applySlotIdx]
              have hb2 : i < (xs.set i (applyAt (s2 :: rest') (xs.get ⟨i, hb⟩) (.set v))).length := by
                simpa using hb
              rw [happ, walk_arr_step hk hp hb2, get_set_self]
              have hrec := ih (xs.get ⟨i, hb⟩) (ra.push seg) (ra2.push seg) w v htf'
                (by simp [WalkArgs.push, hmf]) (by simp [WalkArgs.push, hmu])
                (by simp [WalkArgs.push, hmf2]) (by simp [WalkArgs.push, hmu2]) hread
              simp only [hrec]
          · rw [walk_arr_oob hk hp hb] at hread
            exact absurd hread (by simp)

theorem missPath_of_ne {args : WalkArgs} {key : String} (h : key ≠ "") :
    missPath args key = args.walkedPath ++ [key] := by
  have hpos : 0 < key.length := by
    rcases key with ⟨data⟩
    cases data with
    | nil => exact absurd rfl h
    | cons c cs => simp [String.length]
  simp [missPath, hpos]

theorem genValid_matched {p q : Path} {w : Value}
    (h : getArrayKind (p.getLastD "") ≠ .traversal) :
    genValid p [.matched w q] = q := by
  simp only [genValid, List.foldl]
  rw [if_neg h]

theorem genValid_missed {p q : Path} : genValid p [.missed q] = q := by
  simp [genValid]

theorem firstHit_err_slot {f : Nat → Value → WalkOut} {xsFull : List Value}
    {failOut : WalkOut} {e : GoErr} :
    ∀ (l : List Value) (i : Nat),
    (firstHit f xsFull failOut l i).res = .error e →
    (firstHit f xsFull failOut l i).slot = failOut.slot := by
  intro l
  induction l with
  | nil => intro i _; rfl
  | cons x rest ih =>
    intro i h
    simp only [firstHit] at h ⊢
    cases hs : (f i x).res with
    | ok v =>
      rw [hs] at h
      dsimp only at h
      exact absurd h (by simp)
    | error e2 =>
      rw [hs] at h
      dsimp only at h ⊢
      exact ih (i + 1) h

/-- On every error, `walk` leaves the node's slot untouched (`.set` of
the unchanged input): Go mutates only at a successfully resolved
target. -/
theorem walk_err_slot (p : Path) (node : Value) (args : WalkArgs) (e : GoErr)
    (h : (walk p node args).res = .error e) : (walk p node args).slot = .set node := by
  cases p with
  | nil =>
    cases hmfa : args.matchFunc with
    | none => simp [walk, hmfa] at h
    | some pred =>
      by_cases hpred : pred node args.walkedPath
      · simp [walk, hmfa, hpred] at h
      · simp [walk, hmfa, hpred]
  | cons seg rest =>
    cases node with
    | null => simp [walk]
    | str s => simp [walk]
    | int n => simp [walk]
    | bool b => simp [walk]
    | obj es =>
      cases hk : getArrayKind seg with
      | index => simp [walk, hk]
      | traversal => simp [walk, hk]
      | invalid =>
        cases hl : lookupEntry es seg with
        | some child =>
          rw [walk_obj_step hk hl] at h ⊢
          replace h : (walk rest child (args.push seg)).res = .error e := h
          dsimp only
          simp [h]
        | none =>
          cases rest with
          | cons a b => simp [walk, hk, hl]
          | nil =>
            cases hmu : args.mutateFunc with
            | none => simp [walk, hk, hl, hmu]
            | some f => cases hf : f .null <;> simp [walk, hk, hl, hmu, hf] at h
    | arr xs =>
      cases hk : getArrayKind seg with
      | invalid => simp [walk, hk]
      | index =>
        cases hp : parseInt32 seg with
        | error e2 => simp [walk, hk, hp]
        | ok i =>
          by_cases hb : i < xs.length
          · rw [walk_arr_step hk hp hb] at h ⊢
            replace h : (walk rest (xs.get ⟨i, hb⟩) (args.push seg)).res = .error e := h
            dsimp only
            simp only [List.get_eq_getElem] at h
            simp [h]
          · simp [walk, hk, hp, hb]
      | traversal =>
        cases hma : args.matchAll with
        | true =>
          simp only [walk, hk, hma, if_true] at h ⊢
          cases hc : (collectAll
              (fun i x => walk rest x (args.pushTraversal (toString i))) xs 0).2.1 with
          | nil => simp [hc]
          | cons v t =>
            cases t with
            | nil => rw [hc] at h; simp at h
            | cons v2 t2 => rw [hc] at h; simp at h
        | false =>
          simp only [walk, hk, hma, Bool.false_eq_true, if_false] at h ⊢
          exact firstHit_err_slot xs 0 h

theorem getLastD_mem (l : List String) (h : l ≠ []) : l.getLastD "" ∈ l := by
  induction l with
  | nil => exact absurd rfl h
  | cons a t ih =>
    cases t with
    | nil => simp
    | cons b t2 =>
      have hm := ih (by simp)
      have he : (a :: b :: t2).getLastD "" = (b :: t2).getLastD "" := by
        simp [List.getLastD]
      rw [he]
      exact List.mem_cons_of_mem a hm

/-- The walk `GeneratePatch` performs on a resolving, traversal-free
path: one match event carrying the resolved path (equal to the input
path), and the resolved value as result. -/
theorem gen_walk_resolved {d : NamedObject} {p : Path} {w : Value}
    (hp : p ≠ []) (htf : travFree p)
    (hread : (walk p (.obj d) {}).res = .ok w) :
    (walk p (.obj d) genArgs).log = [.matched w p] ∧
    (walk p (.obj d) genArgs).res = .ok w := by
  have hc := walk_append_of_read_ok p (.obj d) {} genArgs [] w hp htf rfl rfl rfl hread
  rw [List.append_nil] at hc
  obtain ⟨hlog, hres, _⟩ := hc
  have hnil := @walk_nil_gen w { genArgs with walkedPath := genArgs.walkedPath ++ p }
    (fun _ _ => true) rfl rfl rfl
  rw [hnil] at hlog hres
  dsimp only at hlog hres
  simp only [genArgs, List.nil_append] at hlog hres
  exact ⟨hlog, hres⟩

/-- The walk `Set` performs with a constant mutate function along a
resolving, traversal-free path: no callbacks, the new value as result,
and the functional overwrite `applyAt p _ (.set v)` as slot update. -/
theorem walk_mut_resolved {d : NamedObject} {p : Path} {w v : Value}
    (hp : p ≠ []) (htf : travFree p) (hv : v ≠ .null)
    (hread : (walk p (.obj d) {}).res = .ok w) :
    (walk p (.obj d) { mutateFunc := some fun _ => v }).log = [] ∧
    (walk p (.obj d) { mutateFunc := some fun _ => v }).res = .ok v ∧
    (walk p (.obj d) { mutateFunc := some fun _ => v }).slot =
      .set (applyAt p (.obj d) (.set v)) := by
  have hc := walk_append_of_read_ok p (.obj d) {} { mutateFunc := some fun _ => v } [] w
    hp htf rfl rfl rfl hread
  rw [List.append_nil] at hc
  obtain ⟨hlog, hres, hslot⟩ := hc
  have hnil := @walk_nil_mut w v
    { mutateFunc := some fun _ => v, walkedPath :=
        WalkArgs.walkedPath { mutateFunc := some fun _ => v } ++ p }
    (fun _ => v) rfl rfl rfl hv rfl
  rw [hnil] at hlog hres hslot
  dsimp only at hlog hres hslot
  exact ⟨hlog, hres, hslot⟩

/-- A slot overwrite applied along a path that resolves (under plain
read arguments) below an object root yields an object root again. -/
theorem applyAt_obj_shape {d : NamedObject} {p : Path} {w : Value} (s : SlotOut)
    (hp : p ≠ []) (hread : (walk p (.obj d) ({} : WalkArgs)).res = .ok w) :
    ∃ es', applyAt p (.obj d) s = .obj es' := by
  cases p with
  | nil => exact absurd rfl hp
  | cons seg rest =>
    cases hk : getArrayKind seg with
    | traversal =>
      rw [walk_obj_arraykey (by simp [hk])] at hread
      exact absurd hread (by simp)
    | index =>
      rw [walk_obj_arraykey (by simp [hk])] at hread
      exact absurd hread (by simp)
    | invalid =>
      cases hl : lookupEntry d seg with
      | none =>
        rw [walk_obj_miss_read hk hl rfl] at hread
        exact absurd hread (by simp)
      | some child =>
        cases rest with
        | nil => exact ⟨applySlotKey d seg s, by simp [applyAt, hl]⟩
        | cons s2 rest' =>
          exact ⟨applySlotKey d seg (.set (applyAt (s2 :: rest') child s)),
            by simp [applyAt, hl]⟩

/-- `GeneratePatch` on a resolving, traversal-free path returns the
path and value unchanged with no error. -/
theorem generatePatch_resolved {d : NamedObject} {p : Path} {w : Value} (v : Value)
    (hp : p ≠ []) (htf : travFree p)
    (hread : (walk p (.obj d) {}).res = .ok w) :
    d.GeneratePatch p v = (p, v, none) := by
  obtain ⟨glog, gres⟩ := gen_walk_resolved hp htf hread
  have hpe : p.isEmpty = false := by
    cases p with
    | nil => exact absurd rfl hp
    | cons a t => rfl
  have hlastk : getArrayKind (p.getLastD "") ≠ .traversal :=
    htf _ (getLastD_mem p hp)
  simp only [NamedObject.GeneratePatch, NamedObject.Walk, hpe, Bool.false_eq_true,
    if_false]
  rw [glog, gres]
  dsimp only
  rw [genValid_matched hlastk]

/-! ## C1 — Set/Get inverse -/

/-- C1, counterexample: the path `["a", "-foo"]` contains no segment
equal to `"-"` and addresses a scalar (`Get` returns the string `"x"`),
yet after `Set` with `"y"` (which appends, because `"-foo"` is
traversal-classified by its first character) `Get` still returns the
OLD first element `"x"`, not `"y"`. -/
theorem C1_counterexample :
    (∀ s ∈ (["a", "-foo"] : Path), s ≠ "-") ∧
    NamedObject.Get [("a", .arr [.str "x"])] ["a", "-foo"] = .ok (.str "x") ∧
    (Value.str "x").isScalar = true ∧
    (NamedObject.Set [("a", .arr [.str "x"])] ["a", "-foo"] (.str "y")).2 = none ∧
    (NamedObject.Set [("a", .arr [.str "x"])] ["a", "-foo"] (.str "y")).1.Get
      ["a", "-foo"] = .ok (.str "x") ∧
    Value.str "x" ≠ Value.str "y" :=
  ⟨by decide, rfl, rfl, rfl, rfl, by simp⟩

/-- C1 (amended): for a non-empty path with no traversal-classified
segment (no segment starting with `-`) that resolves in `d`, and a
non-null value `v`, `Set(d, p, v)` succeeds and a subsequent `Get`
returns `v`. -/
theorem C1_set_get_inverse (d : NamedObject) (p : Path) (v w : Value)
    (hp : p ≠ []) (htf : travFree p) (hv : v ≠ .null)
    (hread : NamedObject.Get d p = .ok w) :
    (NamedObject.Set d p v).2 = none ∧
    (NamedObject.Set d p v).1.Get p = .ok v := by
  have hread' : (walk p (.obj d) {}).res = .ok w := hread
  have hgen := generatePatch_resolved v hp htf hread'
  obtain ⟨mlog, mres, mslot⟩ := walk_mut_resolved hp htf hv hread'
  obtain ⟨es', hes⟩ := applyAt_obj_shape (.set v) hp hread'
  have hpe : p.isEmpty = false := by
    cases p with
    | nil => exact absurd rfl hp
    | cons a t => rfl
  have hset : NamedObject.Set d p v = (es', none) := by
    simp only [NamedObject.Set, hgen]
    simp only [NamedObject.Walk, mres, errOf]
    rw [afterWalk, if_neg (by simp [hpe])]
    rw [mslot, hes]
  rw [hset]
  refine ⟨rfl, ?_⟩
  show (walk p (.obj es') {}).res = .ok v
  rw [← hes]
  exact walk_applyAt_set_read p (.obj d) {} {} w v htf rfl rfl rfl rfl hread'

theorem C1_set_get_inverse_witness :
    (NamedObject.Set [("a", .int 1)] ["a"] (.int 2)).2 = none ∧
    (NamedObject.Set [("a", .int 1)] ["a"] (.int 2)).1.Get ["a"] = .ok (.int 2) :=
  C1_set_get_inverse [("a", .int 1)] ["a"] (.int 2) (.int 1)
    (by simp) (by intro s hs; rw [List.mem_singleton] at hs; subst hs; decide)
    (by simp) rfl

/-! ## C3 — GeneratePatch minimality -/

/-- C3, counterexample: on a fully resolving path the claim says
`GeneratePatch` returns the path UNCHANGED, but a mid-path traversal
segment `"-"` comes back as the resolved INDEX (`"0"`). -/
theorem C3_counterexample :
    NamedObject.GeneratePatch [("a", .arr [.obj [("b", .str "c")]])] ["a", "-", "b"]
      (.str "z") = (["a", "0", "b"], .str "z", none) ∧
    (["a", "0", "b"] : Path) ≠ ["a", "-", "b"] :=
  ⟨rfl, by decide⟩

/-- Composition specialised to an object root and empty initial walked
path, also covering the empty prefix; the slot conclusion is phrased
for inner `.set` outcomes. -/
theorem walk_obj_append_inner (q : Path) (d es : NamedObject) (args : WalkArgs)
    (rst : Path)
    (htfq : travFree q) (hao : args.appendOnMutate = false)
    (hwp : args.walkedPath = [])
    (hq : (walk q (.obj d) ({} : WalkArgs)).res = .ok (.obj es)) :
    (walk (q ++ rst) (.obj d) args).log =
      (walk rst (.obj es) { args with walkedPath := q }).log ∧
    (walk (q ++ rst) (.obj d) args).res =
      (walk rst (.obj es) { args with walkedPath := q }).res ∧
    (∀ (v : Value) (X : Value),
      (walk rst (.obj es) { args with walkedPath := q }).res = .ok v →
      (walk rst (.obj es) { args with walkedPath := q }).slot = .set X →
      (walk (q ++ rst) (.obj d) args).slot = .set (applyAt q (.obj d) (.set X))) := by
  cases q with
  | nil =>
    have hde : d = es := Value.obj.inj (by
      have h0 : (walk ([] : Path) (.obj d) ({} : WalkArgs)).res = .ok (.obj d) := by
        rw [walk_nil_read rfl rfl]
      rw [h0] at hq
      exact (Except.ok.injEq _ _).mp hq)
    subst hde
    obtain ⟨ma, mf, mu, ao, wp⟩ := args
    simp only at hwp hao
    subst hwp
    subst hao
    refine ⟨rfl, rfl, ?_⟩
    intro v X _ hslot
    dsimp only [List.nil_append] at hslot ⊢
    rw [hslot]
    rfl
  | cons q0 qt =>
    obtain ⟨hlog, hres, hslot⟩ := walk_append_of_read_ok (q0 :: qt) (.obj d) {} args
      rst (.obj es) (by simp) htfq rfl rfl hao hq
    rw [hwp] at hlog hres hslot
    rw [List.nil_append] at hlog hres hslot
    refine ⟨hlog, hres, ?_⟩
    intro v X htres htslot
    rw [htres] at hslot
    dsimp only at hslot
    rw [htslot] at hslot
    exact hslot

/-- One delete step at the last segment of a path, seen from the
object the prefix resolved to: the value under the key is removed (a
missing key is a successful no-op). -/
theorem walk_last_delete {es : NamedObject} {last : String} (args : WalkArgs)
    (hk : getArrayKind last = .invalid)
    (hmf : args.matchFunc = none)
    (hmu : args.mutateFunc = some fun _ => Value.null) :
    walk [last] (.obj es) args =
      match lookupEntry es last with
      | some _ => ⟨[], .ok .null, .set (.obj (eraseKey es last))⟩
      | none => ⟨[], .ok .null, .set (.obj es)⟩ := by
  cases hl : lookupEntry es last with
  | some child =>
    rw [walk_obj_step hk hl]
    have hsub : walk ([] : Path) child (args.push last) = ⟨[], .ok .null, .delete⟩ :=
      @walk_nil_del child (args.push last) (fun _ => Value.null)
        (by simp [WalkArgs.push, hmf]) (by simp [WalkArgs.push, hmu]) rfl
    rw [hsub]
    dsimp only
    simp [applySlotKey]
  | none =>
    exact walk_obj_miss_del hk hl hmu rfl

/-- A slot overwrite with an object along a resolving path below an
object root yields an object root (empty path included). -/
theorem applyAt_set_obj_shape {d : NamedObject} {q : Path} {w : Value}
    (es0 : NamedObject)
    (hread : (walk q (.obj d) ({} : WalkArgs)).res = .ok w) :
    ∃ es', applyAt q (.obj d) (.set (.obj es0)) = .obj es' := by
  cases q with
  | nil => exact ⟨es0, rfl⟩
  | cons seg rest => exact applyAt_obj_shape _ (by simp) hread

/-- A traversal-free path whose prefix resolves to an object missing
the final key is not `Has`. -/
theorem has_append_miss {d0 es0 : NamedObject} (q : Path) {last : String}
    (htfq : travFree q) (hk : getArrayKind last = .invalid)
    (hq : (walk q (.obj d0) ({} : WalkArgs)).res = .ok (.obj es0))
    (hl : lookupEntry es0 last = none) :
    NamedObject.Has d0 (q ++ [last]) = false := by
  obtain ⟨_, hres, _⟩ := walk_obj_append_inner q d0 es0 {} [last] htfq rfl rfl hq
  rw [walk_obj_miss_read hk hl rfl] at hres
  simp [NamedObject.Has, NamedObject.Get, NamedObject.Walk, hres]

/-! ## C8 — Delete then Has -/

/-- C8, counterexample: deleting an array ELEMENT shifts the following
elements down, so the deleted index still exists afterwards
(`Delete` succeeds, yet `Has` is still true); likewise `Delete` of the
empty path succeeds without changing anything, and `Has` of the empty
path stays true. -/
theorem C8_counterexample :
    (NamedObject.Delete [("a", .arr [.int 1, .int 2])] ["a", "0"]).2 = none ∧
    NamedObject.Has (NamedObject.Delete [("a", .arr [.int 1, .int 2])] ["a", "0"]).1
      ["a", "0"] = true ∧
    (NamedObject.Delete [("x", .int 1)] ([] : Path)).2 = none ∧
    NamedObject.Has (NamedObject.Delete [("x", .int 1)] ([] : Path)).1 ([] : Path)
      = true :=
  ⟨rfl, rfl, rfl, rfl⟩

/-- C8 (amended): along a traversal-free path whose prefix resolves to
an object (with distinct keys) and whose LAST segment is an ordinary
map key, `Delete` succeeds and afterwards `Has` is false — also when
the key never existed (then `Delete` is a successful no-op), and a
never-existing key is not `Has` in the original document either. -/
theorem C8_delete_then_has (d es : NamedObject) (q : Path) (last : String)
    (hnd : (entryKeys es).Nodup)
    (htf : travFree (q ++ [last])) (hk : getArrayKind last = .invalid)
    (hq : (walk q (.obj d) ({} : WalkArgs)).res = .ok (.obj es)) :
    (NamedObject.Delete d (q ++ [last])).2 = none ∧
    NamedObject.Has (NamedObject.Delete d (q ++ [last])).1 (q ++ [last]) = false ∧
    (lookupEntry es last = none → NamedObject.Has d (q ++ [last]) = false) := by
  have htfq : travFree q := fun s hs => htf s (List.mem_append_left [last] hs)
  obtain ⟨hlog, hres, hslot⟩ := walk_obj_append_inner q d es
    { mutateFunc := some fun _ => Value.null } [last] htfq rfl rfl hq
  have hrec : ({ ({ mutateFunc := some fun _ => Value.null } : WalkArgs) with
      walkedPath := q } : WalkArgs) =
      { mutateFunc := some fun _ => Value.null, walkedPath := q } := rfl
  rw [hrec] at hres hslot
  have htr := @walk_last_delete es last
    { mutateFunc := some fun _ => Value.null, walkedPath := q } hk rfl rfl
  have htr' : walk [last] (.obj es)
      { mutateFunc := some fun _ => Value.null, walkedPath := q } =
      ⟨[], .ok .null, .set (.obj (eraseKey es last))⟩ := by
    rw [htr]
    cases hl : lookupEntry es last with
    | some child => rfl
    | none => rw [eraseKey_of_lookup_none hl]
  have hresv : (walk (q ++ [last]) (.obj d)
      { mutateFunc := some fun _ => Value.null }).res = .ok .null := by
    rw [hres, htr']
  have hs2 := hslot .null (.obj (eraseKey es last)) (by rw [htr']) (by rw [htr'])
  obtain ⟨es', hes⟩ := applyAt_set_obj_shape (eraseKey es last) hq
  have hpe : (q ++ [last]).isEmpty = false := by cases q <;> rfl
  have hdel : NamedObject.Delete d (q ++ [last]) = (es', none) := by
    simp only [NamedObject.Delete, NamedObject.Walk, afterWalk, hpe,
      Bool.false_eq_true, if_false]
    rw [hresv, hs2, hes]
    rfl
  have hL3 := walk_applyAt_set_read q (.obj d) {} {} (.obj es)
    (.obj (eraseKey es last)) htfq rfl rfl rfl rfl hq
  have hq' : (walk q (.obj es') ({} : WalkArgs)).res = .ok (.obj (eraseKey es last)) := by
    rw [← hes]
    exact hL3
  have hhas := has_append_miss q htfq hk hq' (lookupEntry_eraseKey_self hnd)
  rw [hdel]
  exact ⟨rfl, hhas, fun hl0 => has_append_miss q htfq hk hq hl0⟩

theorem C8_delete_then_has_witness :
    (NamedObject.Delete [("m", .obj [("k", .int 5)])] ["m", "k"]).2 = none ∧
    NamedObject.Has (NamedObject.Delete [("m", .obj [("k", .int 5)])] ["m", "k"]).1
      ["m", "k"] = false ∧
    (lookupEntry [("k", .int 5)] "k" = none →
      NamedObject.Has [("m", .obj [("k", .int 5)])] ["m", "k"] = false) :=
  C8_delete_then_has [("m", .obj [("k", .int 5)])] [("k", .int 5)] ["m"] "k"
    (by decide)
    (by intro s hs; simp [List.mem_cons] at hs; rcases hs with rfl | rfl <;> decide)
    (by decide) rfl

/-! ## C9 — structural errors from Set/Delete -/

/-- C9, counterexample: `Set` DISCARDS the `GeneratePatch` error
(`p, v, _ := o.GeneratePatch(...)`).  Writing below a scalar cannot be
performed — `Get` on the same path reports `NotTraversable` — yet `Set`
returns nil error and leaves the document unchanged: the walk error
degraded the patch path to `[]`, and the root walk is a silent no-op. -/
theorem C9_counterexample :
    NamedObject.Set [("arr", .arr [.str "s"])] ["arr", "0", "x"] (.str "v") =
      ([("arr", .arr [.str "s"])], none) ∧
    NamedObject.Get [("arr", .arr [.str "s"])] ["arr", "0", "x"] =
      .error (.notTraversable "0 is string") :=
  ⟨rfl, rfl⟩

/-- C9 (amended): `Delete` DOES surface every error of its underlying
walk (NotTraversable, NotAnArray, NotFound, ...) unchanged, returning
the document unmodified. -/
theorem C9_delete_surfaces_errors (d : NamedObject) (p : Path) (e : GoErr)
    (herr : (walk p (.obj d) { mutateFunc := some fun _ => Value.null }).res
      = .error e) :
    NamedObject.Delete d p = (d, some e) := by
  have hslot := walk_err_slot p (.obj d) { mutateFunc := some fun _ => Value.null }
    e herr
  cases p with
  | nil => simp [NamedObject.Delete, NamedObject.Walk, afterWalk, errOf, herr]
  | cons s t =>
    simp [NamedObject.Delete, NamedObject.Walk, afterWalk, errOf, herr, hslot]

theorem C9_delete_surfaces_errors_witness :
    NamedObject.Delete [("a", .str "x")] ["a", "b"]
      = ([("a", .str "x")], some (.notTraversable "a is string")) :=
  C9_delete_surfaces_errors [("a", .str "x")] ["a", "b"]
    (.notTraversable "a is string") rfl

/-! ## C5 — GeneratePatch error handling -/

/-- C5, counterexample: with the first path segment `""` missing at the
root, the not-found callback records the walked path WITHOUT the empty
key, so the resolved length is 0 and `IsArray(-1)` is evaluated — in Go
`p[-1:]` panics (slice bounds out of range) instead of returning the
claimed `IndexNotation` error, although extending
`["", "3", "x"]` would require fabricating explicit index 3. -/
theorem C5_counterexample :
    NamedObject.GeneratePatch [] ["", "3", "x"] (.str "v")
      = ([], .str "v", some .panicSliceBounds) := rfl

/-- C5 (amended): when the walk of `GeneratePatch` fails with a
resolved path shorter than the input, a non-NotFound error is returned
to the caller unchanged, and a NotFound error whose extension point
carries explicit index notation yields the `IndexNotation` error. -/
theorem C5_generate_patch_errors (d : NamedObject) (p : Path) (v : Value)
    (err : GoErr) (hp : p ≠ [])
    (herr : (walk p (.obj d) genArgs).res = .error err)
    (hlen : (genValid p (walk p (.obj d) genArgs).log).length ≠ p.length) :
    (err.isNotFound = false →
      NamedObject.GeneratePatch d p v =
        (genValid p (walk p (.obj d) genArgs).log, v, some err)) ∧
    (err.isNotFound = true →
      ∀ b, isArrayAt p
          (((genValid p (walk p (.obj d) genArgs).log).length : Int) - 1)
          = some (b, .index) →
        NamedObject.GeneratePatch d p v =
          (genValid p (walk p (.obj d) genArgs).log, v, some .indexNotation)) := by
  have hpe : p.isEmpty = false := by
    cases p with
    | nil => exact absurd rfl hp
    | cons a t => rfl
  constructor
  · intro hnf
    simp only [NamedObject.GeneratePatch, NamedObject.Walk, hpe, Bool.false_eq_true,
      if_false]
    rw [herr]
    dsimp only
    rw [if_neg hlen, if_pos (by simp [hnf])]
  · intro hnf b hia
    simp only [NamedObject.GeneratePatch, NamedObject.Walk, hpe, Bool.false_eq_true,
      if_false]
    rw [herr]
    dsimp only
    rw [if_neg hlen, if_neg (by simp [hnf]), hia]

theorem C5_generate_patch_errors_witness :
    NamedObject.GeneratePatch [("a", .str "x")] ["a", "b"] (.int 0)
      = ([], .int 0, some (.notTraversable "a is string")) ∧
    NamedObject.GeneratePatch [("array", .arr [])] ["array", "3", "foo"] (.int 0)
      = (["array", "3"], .int 0, some .indexNotation) :=
  ⟨((C5_generate_patch_errors [("a", .str "x")] ["a", "b"] (.int 0)
      (.notTraversable "a is string") (by simp) rfl (by decide)).1 rfl).trans rfl,
   ((C5_generate_patch_errors [("array", .arr [])] ["array", "3", "foo"] (.int 0)
      (.notFound "3") (by simp) rfl (by decide)).2 rfl true rfl).trans rfl⟩

/-- `GeneratePatch` on a path whose walk missed exactly at the last
segment (one not-found event carrying the full path): the path and
value are returned unchanged with no error. -/
theorem generatePatch_last_missing {d : NamedObject} {p : Path} (v : Value)
    (hp : p ≠ [])
    (hglog : (walk p (.obj d) genArgs).log = [.missed p])
    (hgres : ∃ k, (walk p (.obj d) genArgs).res = .error (.notFound k)) :
    d.GeneratePatch p v = (p, v, none) := by
  obtain ⟨k, hgres⟩ := hgres
  have hpe : p.isEmpty = false := by
    cases p with
    | nil => exact absurd rfl hp
    | cons a t => rfl
  simp only [NamedObject.GeneratePatch, NamedObject.Walk, hpe, Bool.false_eq_true,
    if_false]
  rw [hglog, hgres]
  dsimp only
  rw [genValid_missed, if_pos rfl]

/-- C3 (amended), for non-empty traversal-free paths: (a) a fully
resolving path is returned unchanged; (b) a path missing exactly its
last segment — a non-empty map key absent from the object the prefix
resolves to, or an out-of-range array index — is returned unchanged;
(c) a missing EMPTY last key is dropped from the not-found path, so
`GeneratePatch({"a": m}, ["a",""], v)` returns `(["a"], {"": v})`
instead; (d) `["spec","field"]` with `"spec"` missing at the root
yields `(["spec"], {"field": v})`.  On traversal paths the resolved
path comes back (see the counterexample); a TRAILING `"-"` is restored:
`GeneratePatch({"a": [1]}, ["a","-"], v)` returns `(["a","-"], v)`. -/
theorem C3_generate_patch_minimality (v : Value) :
    (∀ (d : NamedObject) (p : Path) (w : Value), p ≠ [] → travFree p →
      NamedObject.Get d p = .ok w →
      NamedObject.GeneratePatch d p v = (p, v, none)) ∧
    (∀ (d es : NamedObject) (q : Path) (last : String),
      travFree (q ++ [last]) → getArrayKind last = .invalid → last ≠ "" →
      (walk q (.obj d) ({} : WalkArgs)).res = .ok (.obj es) →
      lookupEntry es last = none →
      NamedObject.GeneratePatch d (q ++ [last]) v = (q ++ [last], v, none)) ∧
    (∀ (d : NamedObject) (xs : List Value) (q : Path) (last : String) (i : Nat),
      travFree (q ++ [last]) → getArrayKind last = .index →
      parseInt32 last = .ok i →
      (walk q (.obj d) ({} : WalkArgs)).res = .ok (.arr xs) →
      ¬ i < xs.length →
      NamedObject.GeneratePatch d (q ++ [last]) v = (q ++ [last], v, none)) ∧
    (∀ m : NamedObject, lookupEntry m "" = none →
      NamedObject.GeneratePatch [("a", .obj m)] ["a", ""] v
        = (["a"], .obj [("", v)], none)) ∧
    (∀ d' : NamedObject, lookupEntry d' "spec" = none →
      NamedObject.GeneratePatch d' ["spec", "field"] v =
        (["spec"], .obj [("field", v)], none)) ∧
    NamedObject.GeneratePatch [("a", .arr [.int 1])] ["a", "-"] v
      = (["a", "-"], v, none) := by
  refine ⟨?_, ?_, ?_, ?_, ?_, rfl⟩
  · -- (a) fully resolving traversal-free path
    intro d p w hp htf hread
    exact generatePatch_resolved v hp htf hread
  · -- (b1) missing non-empty map key at the last segment
    intro d es q last htf hk hne hq hl
    have htfq : travFree q := fun s hs => htf s (List.mem_append_left [last] hs)
    obtain ⟨hlog, hres, _⟩ := walk_obj_append_inner q d es genArgs [last] htfq rfl rfl hq
    rw [walk_obj_miss_read hk hl rfl] at hlog hres
    refine generatePatch_last_missing v (by cases q <;> simp) ?_ ?_
    · rw [hlog]
      simp [missPath_of_ne hne, genArgs]
    · exact ⟨last, by rw [hres]⟩
  · -- (b2) out-of-range array index at the last segment
    intro d xs q last i htf hk hp hq hb
    have hne : last ≠ "" := by
      intro h
      subst h
      simp [getArrayKind] at hk
    have hqne : q ≠ [] := by
      intro h
      subst h
      rw [walk_nil_read rfl rfl] at hq
      exact absurd hq (by simp)
    have htfq : travFree q := fun s hs => htf s (List.mem_append_left [last] hs)
    obtain ⟨hlog, hres, _⟩ := walk_append_of_read_ok q (.obj d) {} genArgs [last]
      (.arr xs) hqne htfq rfl rfl rfl hq
    rw [walk_arr_oob hk hp hb] at hlog hres
    refine generatePatch_last_missing v (by cases q <;> simp) ?_ ?_
    · rw [hlog]
      simp [missPath_of_ne hne, genArgs]
    · exact ⟨last, by rw [hres]⟩
  · -- (c) missing EMPTY last key: the not-found path omits it
    intro m hl'
    have hsub : walk [""] (.obj m) (genArgs.push "a") =
        ⟨[.missed ["a"]], .error (.notFound ""), .set (.obj m)⟩ := by
      rw [walk_obj_miss_read (by decide) hl' rfl]
      rfl
    have hlk : lookupEntry [("a", Value.obj m)] "a" = some (Value.obj m) := by
      simp [lookupEntry]
    have hw : walk ["a", ""] (.obj [("a", Value.obj m)]) genArgs =
        ⟨[.missed ["a"]], .error (.notFound ""), .set (.obj [("a", Value.obj m)])⟩ := by
      rw [walk_obj_step (by decide) hlk, hsub]
    unfold NamedObject.GeneratePatch NamedObject.Walk
    rw [hw]
    rfl
  · -- (d) ["spec","field"] with "spec" missing at the root
    intro d' hl'
    have hw : walk ["spec", "field"] (.obj d') genArgs =
        ⟨[.missed ["spec"]], .error (.notFound "spec"), .set (.obj d')⟩ := by
      rw [walk_obj_miss_deep (by decide) hl' (by simp)]
      rfl
    unfold NamedObject.GeneratePatch NamedObject.Walk
    rw [hw]
    rfl

theorem C3_generate_patch_minimality_witness :
    NamedObject.GeneratePatch [("a", .obj [("b", .int 1)])] ["a", "b"] (.str "z")
      = (["a", "b"], .str "z", none) ∧
    NamedObject.GeneratePatch [("a", .obj [("b", .int 1)])] ["a", "c"] (.str "z")
      = (["a", "c"], .str "z", none) ∧
    NamedObject.GeneratePatch [("a", .arr [.int 7])] ["a", "3"] (.str "z")
      = (["a", "3"], .str "z", none) ∧
    NamedObject.GeneratePatch [("a", .obj [])] ["a", ""] (.str "z")
      = (["a"], .obj [("", .str "z")], none) ∧
    NamedObject.GeneratePatch [] ["spec", "field"] (.str "z")
      = (["spec"], .obj [("field", .str "z")], none) := by
  have h := C3_generate_patch_minimality (.str "z")
  have htfb : travFree ["a", "b"] := by
    intro s hs
    simp [List.mem_cons] at hs
    rcases hs with rfl | rfl <;> decide
  have htfc : travFree (["a"] ++ ["c"]) := by
    intro s hs
    simp [List.mem_cons] at hs
    rcases hs with rfl | rfl <;> decide
  have htf3 : travFree (["a"] ++ ["3"]) := by
    intro s hs
    simp [List.mem_cons] at hs
    rcases hs with rfl | rfl <;> decide
  exact ⟨h.1 [("a", .obj [("b", .int 1)])] ["a", "b"] (.int 1) (by simp) htfb rfl,
    h.2.1 [("a", .obj [("b", .int 1)])] [("b", .int 1)] ["a"] "c" htfc
      (by decide) (by decide) rfl rfl,
    h.2.2.1 [("a", .arr [.int 7])] [.int 7] ["a"] "3" 3 htf3
      (by decide) rfl rfl (by decide),
    h.2.2.2.1 [] rfl,
    h.2.2.2.2.1 [] rfl⟩

end GoKube
